import Mathlib

/-!
Shallow embedding, in Lean 4, of the core of the i18n-mcp translation
index (TypeScript).  Pure functions become Lean functions; the mutable
`TranslationIndex` object becomes explicit state passing over an
`IndexState`; JavaScript object references (which are load-bearing for
the batch-rollback semantics) become an explicit heap of numbered cells.
JS strings are modelled as Lean `String`s and the JS `<` comparison on
strings (lexicographic by UTF-16 code unit) as a lexicographic
comparison on the character list; all characters appearing in the
claims are below U+FFFF, where the two notions agree.
-/

/-- Scalar translation values (string/number/boolean), mirroring the
`value` payloads the index stores.  Nested objects/arrays are rejected
upstream, so a scalar sum is the faithful value domain. -/
inductive Scalar where
  | str (s : String)
  | num (n : Int)
  | bool (b : Bool)
deriving DecidableEq, Repr

/-- String(value) as used by the reverse index and the search engine.
Integer-valued numbers print the way JS prints them. -/
def Scalar.toStr : Scalar → String
  | .str s => s
  | .num n => toString n
  | .bool b => if b then "true" else "false"

/-- One language translation entry (src/types): value plus bookkeeping
metadata, created afresh on every `set`. -/
structure TranslationEntry where
  value : Scalar
  file : String
  line : Nat
  column : Nat
  lastModified : Nat
deriving DecidableEq, Repr

/-- IndexedTranslation: a JS object mapping language code to entry,
modelled as an association list in property-insertion order. -/
abbrev LangMap := List (String × TranslationEntry)

/-- Association-list lookup (first match), the model of JS object
property access and `Map.get`. -/
def alookup {α : Type} : List (String × α) → String → Option α
  | [], _ => none
  | (k, v) :: rest, key => if k = key then some v else alookup rest key

/-- Association-list lookup for Nat keys (heap cells). -/
def nlookup {α : Type} : List (Nat × α) → Nat → Option α
  | [], _ => none
  | (k, v) :: rest, key => if k = key then some v else nlookup rest key

/-- JS object property write `o[k] = v`: replace in place if the key
exists (keeping its position), else append. -/
def aset {α : Type} : List (String × α) → String → α → List (String × α)
  | [], key, v => [(key, v)]
  | (k, w) :: rest, key, v =>
    if k = key then (k, v) :: rest else (k, w) :: aset rest key v

/-- Heap cell overwrite, same replace-or-append discipline with Nat keys. -/
def nset {α : Type} : List (Nat × α) → Nat → α → List (Nat × α)
  | [], key, v => [(key, v)]
  | (k, w) :: rest, key, v =>
    if k = key then (k, v) :: rest else (k, w) :: nset rest key v

/-- JS `delete o[k]`: remove the (unique) property with that key. -/
def aremove {α : Type} : List (String × α) → String → List (String × α)
  | [], _ => []
  | (k, v) :: rest, key =>
    if k = key then rest else (k, v) :: aremove rest key

/-- JS string comparison `a < b`: lexicographic by code unit. -/
def charsLt : List Char → List Char → Bool
  | _, [] => false
  | [], _ :: _ => true
  | a :: as, b :: bs =>
    if a < b then true else if b < a then false else charsLt as bs

/-- JS `a < b` on strings. -/
def strLt (a b : String) : Bool := charsLt a.data b.data

/-- JS `a.startsWith(p)` on character lists. -/
def charsStarts : List Char → List Char → Bool
  | _, [] => true
  | [], _ :: _ => false
  | a :: as, b :: bs => if a = b then charsStarts as bs else false

/-- JS `a.startsWith(p)` on strings. -/
def strStarts (a p : String) : Bool := charsStarts a.data p.data

/-- JS `a.includes(b)`: contiguous-substring test. -/
def charsIncl : List Char → List Char → Bool
  | h, n => charsStarts h n ||
      match h with
      | [] => false
      | _ :: t => charsIncl t n

/-- JS `a.includes(b)` on strings. -/
def strIncl (a b : String) : Bool := charsIncl a.data b.data

/-- JS `s.split('.')` (non-empty separator), on the character list. -/
def splitDotChars : List Char → List String
  | [] => [""]
  | c :: rest =>
    match splitDotChars rest with
    | [] => []
    | s :: ss =>
      if c = '.' then "" :: s :: ss else String.mk (c :: s.data) :: ss

/-- JS `keyPath.split('.')`. -/
def jsSplitDot (s : String) : List String := splitDotChars s.data

/-- JS `s.toLowerCase()` (ASCII range, which covers valid key paths). -/
def jsToLower (s : String) : String := String.mk (s.data.map Char.toLower)

namespace PathParser

/-- Character admitted by the validation regex `[a-zA-Z0-9._-]`. -/
def isValidChar (c : Char) : Bool :=
  ('a' ≤ c && c ≤ 'z') || ('A' ≤ c && c ≤ 'Z') || ('0' ≤ c && c ≤ '9') ||
    c = '.' || c = '_' || c = '-'

/-- JS `path.includes('..')`. -/
def hasDoubleDot : List Char → Bool
  | [] => false
  | [_] => false
  | a :: b :: rest => (a = '.' && b = '.') || hasDoubleDot (b :: rest)

/-- PathParser.isValid (src/utils/path-parser.ts): non-empty, only
`[a-zA-Z0-9._-]`, no consecutive dots, no leading/trailing dot. -/
def isValid (path : String) : Bool :=
  if path = "" then false
  else if !(path.data.all isValidChar) then false
  else if hasDoubleDot path.data then false
  else if strStarts path "." || (charsStarts path.data.reverse ['.']) then false
  else true

/-- PathParser.parse: split at dots (the memoization cache is
behaviour-invisible and elided). -/
def parse (path : String) : List String := jsSplitDot path

/-- PathParser.join. -/
def join (segments : List String) : String := String.intercalate "." segments

/-- PathParser.getParent: drop the last segment, none if ≤ 1 segment. -/
def getParent (path : String) : Option String :=
  let segments := parse path
  if segments.length ≤ 1 then none else some (join segments.dropLast)

/-- PathParser.isChildOf: strict dotted-prefix test (note: identical to
`isDescendantOf` in the source; it accepts descendants of any depth). -/
def isChildOf (childPath parentPath : String) : Bool :=
  if childPath = parentPath then false
  else strStarts childPath (parentPath ++ ".")

/-- PathParser.getDepth: number of segments. -/
def getDepth (path : String) : Nat := (parse path).length

end PathParser

/-- Batch operation kind (`'set' | 'delete'`). -/
inductive OpType where
  | set
  | delete
deriving DecidableEq, Repr

/-- BatchOperation (src/types): `{type, keyPath, language?, value?}`. -/
structure BatchOperation where
  type : OpType
  keyPath : String
  language : Option String
  value : Option Scalar
deriving DecidableEq, Repr

/-- Events emitted by the index (`set`, `delete`, `clear`, `batchUpdate`);
the emitter's listener list is modelled as an append-only log. -/
inductive Event where
  | set (keyPath language : String) (value : Scalar) (metadata : TranslationEntry)
  | delete (keyPath : String) (language : Option String)
  | clear
  | batchUpdate (operations : List BatchOperation)
deriving DecidableEq, Repr

/-- Values held by the read cache: `get(k,l)` caches the
`TranslationEntry` (a fresh object, immutable once created), `get(k)`
caches the mutable `IndexedTranslation` object, i.e. a heap reference;
a cached `undefined` for a missing language is `none`. -/
inductive CacheHit where
  | entry (e : TranslationEntry)
  | ref (r : Nat)
deriving DecidableEq, Repr

/-- Cached value, possibly the cached JS `undefined`. -/
abbrev CachedVal := Option CacheHit

/-- Modelled from the spec: the Bounded Cache component
(`src/utils/lru-cache.ts` is not among the repository sources; only its
use sites are).  Per spec §2, a fixed-capacity key→value cache with
least-recently-used eviction; modelled as a most-recent-first
association list. -/
abbrev LRU := List (String × CachedVal)

/-- Modelled from the spec: cache membership test. -/
def lruHas (c : LRU) (k : String) : Bool := (alookup c k).isSome

/-- Modelled from the spec: cache read, refreshing recency. -/
def lruRead (c : LRU) (k : String) : CachedVal × LRU :=
  match alookup c k with
  | some v => (v, (k, v) :: c.filter (fun p => p.1 ≠ k))
  | none => (none, c)

/-- Modelled from the spec: cache write with LRU eviction at capacity. -/
def lruWrite (cap : Nat) (c : LRU) (k : String) (v : CachedVal) : LRU :=
  ((k, v) :: c.filter (fun p => p.1 ≠ k)).take cap

/-- Whole-index state: the JS object graph made explicit.  `heap` holds
the mutable `IndexedTranslation` objects by reference number so that the
shallow-copy aliasing of `batchUpdate`'s backup is represented exactly;
`log` is the append-only event-emission history; `now` is the ambient
clock read by `Date.now()`. -/
structure IndexState where
  heap : List (Nat × LangMap)
  nextRef : Nat
  flatIndex : List (String × Nat)
  reverseIndex : List (String × List String)
  structureTemplate : List (String × String)
  cache : LRU
  maxCacheSize : Nat
  baseLanguage : String
  sortedKeys : List String
  keysDirty : Bool
  log : List Event
  now : Nat
deriving DecidableEq, Repr

/-- JS `typeof value` for the structure template. -/
def Scalar.typeOf : Scalar → String
  | .str _ => "string"
  | .num _ => "number"
  | .bool _ => "boolean"

namespace TranslationIndex

/-- Cache key `keyPath:language` or `keyPath:all` — the source's
`language || 'all'` is a JS truthiness test, so the empty-string
language also maps to `all`. -/
def cacheKeyOf (keyPath : String) (language : Option String) : String :=
  keyPath ++ ":" ++
    (match language with
     | some l => if l = "" then "all" else l
     | none => "all")

/-- TranslationIndex.has: O(1) existence check; `if (language)` is a
JS truthiness test, so an absent or empty-string language falls through
to the whole-key existence answer. -/
def has (s : IndexState) (keyPath : String) (language : Option String) : Bool :=
  match alookup s.flatIndex keyPath with
  | none => false
  | some r =>
    match language with
    | some l =>
      if l = "" then true
      else (alookup ((nlookup s.heap r).getD []) l).isSome
    | none => true

/-- TranslationIndex.get: cached lookup; caches the computed result,
returns `undefined` uncached when the key path is absent.  The result
selector `language ? entry[language] : entry` is a JS truthiness test:
an absent or empty-string language reads the whole entry map (under the
`keyPath:all` cache key). -/
def get (s : IndexState) (keyPath : String) (language : Option String) :
    CachedVal × IndexState :=
  let cacheKey := cacheKeyOf keyPath language
  if lruHas s.cache cacheKey then
    let rc := lruRead s.cache cacheKey
    (rc.1, {s with cache := rc.2})
  else
    match alookup s.flatIndex keyPath with
    | none => (none, s)
    | some r =>
      let result : CachedVal :=
        match language with
        | some l =>
          if l = "" then some (.ref r)
          else (alookup ((nlookup s.heap r).getD []) l).map CacheHit.entry
        | none => some (.ref r)
      (result, {s with cache := lruWrite s.maxCacheSize s.cache cacheKey result})

/-- Fresh TranslationEntry built by `set` (metadata defaults, current
timestamp). -/
def mkEntry (value : Scalar) (metadata : Option TranslationEntry) (now : Nat) :
    TranslationEntry :=
  { value := value
    file := (metadata.map (·.file)).getD ""
    line := (metadata.map (·.line)).getD 0
    column := (metadata.map (·.column)).getD 0
    lastModified := now }

/-- TranslationIndex.invalidateCache: drop every cache entry whose key
starts with `keyPath + ":"` (or equals `keyPath + ":all"`). -/
def invalidateCache (cache : LRU) (keyPath : String) : LRU :=
  cache.filter
    (fun p => !(strStarts p.1 (keyPath ++ ":") || p.1 = keyPath ++ ":all"))

/-- TranslationIndex.updateReverseIndex: add the key path to the set of
paths holding the lowercased stringified value. -/
def updateReverseIndex (ri : List (String × List String)) (keyPath : String)
    (value : Scalar) : List (String × List String) :=
  let valueStr := jsToLower value.toStr
  match alookup ri valueStr with
  | some paths =>
    aset ri valueStr (if paths.contains keyPath then paths else paths ++ [keyPath])
  | none => ri ++ [(valueStr, [keyPath])]

/-- TranslationIndex.set: validate the key path (throwing, i.e.
returning an error message, before any mutation), create the entry
object if absent (marking the key list dirty), store a fresh entry for
the language by mutating the shared cell, update the reverse index and
structure template, invalidate the cache, emit `set`. -/
def set (s : IndexState) (keyPath language : String) (value : Scalar)
    (metadata : Option TranslationEntry) : IndexState × Option String :=
  if !PathParser.isValid keyPath then
    (s, some ("Invalid key path: " ++ keyPath))
  else
    let found := alookup s.flatIndex keyPath
    let s1 :=
      match found with
      | some _ => s
      | none =>
        { s with heap := (s.nextRef, []) :: s.heap
                 flatIndex := s.flatIndex ++ [(keyPath, s.nextRef)]
                 nextRef := s.nextRef + 1
                 keysDirty := true }
    let r := match found with | some r => r | none => s.nextRef
    let te := mkEntry value metadata s1.now
    let cell := (nlookup s1.heap r).getD []
    let s2 := { s1 with heap := nset s1.heap r (aset cell language te) }
    let s3 := { s2 with reverseIndex := updateReverseIndex s2.reverseIndex keyPath value }
    let s4 :=
      if language = s3.baseLanguage then
        { s3 with structureTemplate := aset s3.structureTemplate keyPath value.typeOf }
      else s3
    let s5 := { s4 with cache := invalidateCache s4.cache keyPath }
    ({ s5 with log := s5.log ++ [Event.set keyPath language value te] }, none)

/-- TranslationIndex.delete: `if (language)` is a JS truthiness test,
so only a non-empty language removes that one language's entry
(removing the key path entirely when the cell empties); an absent or
empty-string language deletes the whole key, emitting `delete` with no
language in the payload.  Returns false when nothing matched;
invalidates the cache and emits `delete`. -/
def delete (s : IndexState) (keyPath : String) (language : Option String) :
    IndexState × Bool :=
  match alookup s.flatIndex keyPath with
  | none => (s, false)
  | some r =>
    match language with
    | some l =>
      if l = "" then
        let s1 := { s with flatIndex := s.flatIndex.filter (fun p => p.1 ≠ keyPath)
                           keysDirty := true }
        let s2 := { s1 with cache := invalidateCache s1.cache keyPath }
        ({ s2 with log := s2.log ++ [Event.delete keyPath none] }, true)
      else
        let cell := (nlookup s.heap r).getD []
        if (alookup cell l).isSome then
          let cell2 := aremove cell l
          let s1 := { s with heap := nset s.heap r cell2 }
          let s2 :=
            if cell2.isEmpty then
              { s1 with flatIndex := s1.flatIndex.filter (fun p => p.1 ≠ keyPath)
                        keysDirty := true }
            else s1
          let s3 := { s2 with cache := invalidateCache s2.cache keyPath }
          ({ s3 with log := s3.log ++ [Event.delete keyPath (some l)] }, true)
        else (s, false)
    | none =>
      let s1 := { s with flatIndex := s.flatIndex.filter (fun p => p.1 ≠ keyPath)
                         keysDirty := true }
      let s2 := { s1 with cache := invalidateCache s1.cache keyPath }
      ({ s2 with log := s2.log ++ [Event.delete keyPath none] }, true)

/-- Stable insertion step for the sorted key list. -/
def insertSorted (x : String) : List String → List String
  | [] => [x]
  | h :: t => if strLt x h then x :: h :: t else h :: insertSorted x t

/-- JS `Array.sort()` on strings (default comparator: UTF-16
lexicographic; stable), as a stable insertion sort. -/
def sortStrings : List String → List String
  | [] => []
  | h :: t => insertSorted h (sortStrings t)

/-- TranslationIndex.ensureSortedKeys: lazily rebuild the sorted key
list from the flat index when dirty. -/
def ensureSortedKeys (s : IndexState) : IndexState :=
  if s.keysDirty then
    { s with sortedKeys := sortStrings (s.flatIndex.map Prod.fst), keysDirty := false }
  else s

/-- TranslationIndex.getKeys: a copy of the (freshly ensured) sorted
key list. -/
def getKeys (s : IndexState) : List String × IndexState :=
  let s1 := ensureSortedKeys s
  (s1.sortedKeys, s1)

/-- Direct store observation (no cache): the entry stored for a key
path and language, read through the flat index and the heap. -/
def storeEntry (s : IndexState) (keyPath language : String) : Option TranslationEntry :=
  (alookup s.flatIndex keyPath).bind
    (fun r => (nlookup s.heap r).bind (fun cell => alookup cell language))

/-- Direct store observation: the stored scalar value. -/
def storeVal (s : IndexState) (keyPath language : String) : Option Scalar :=
  (storeEntry s keyPath language).map (·.value)

/-- Key set of the flat index store. -/
def keySet (s : IndexState) : List String := s.flatIndex.map Prod.fst

end TranslationIndex

/-- Reference-graph well-formedness of an index state: distinct key
paths own distinct entry objects, every referenced cell exists, cells
keep one entry per language, and reference numbers are below the
allocation counter (as produced by the constructors and operations). -/
def Wf (s : IndexState) : Prop :=
  (s.flatIndex.map Prod.snd).Nodup ∧
  (∀ p ∈ s.flatIndex, (nlookup s.heap p.2).isSome) ∧
  (∀ p ∈ s.heap, (p.2.map Prod.fst).Nodup) ∧
  (∀ p ∈ s.flatIndex, p.2 < s.nextRef) ∧
  (∀ p ∈ s.heap, p.1 < s.nextRef)

instance (s : IndexState) : Decidable (Wf s) := by
  unfold Wf; infer_instance

namespace TranslationBatchOperations

/-- Per-operation pass of TranslationBatchOperations.batchUpdate: apply
each operation in array order through the index's own `set`/`delete`
(the `setMethod`/`deleteMethod` callbacks wired in
translation-index.ts), collecting failures as error strings without
stopping.  The guard `!operation.language || operation.value ===
undefined` rejects an absent or empty-string (JS-falsy) language, but
only an undefined value. -/
def applyOp (acc : IndexState × List String) (op : BatchOperation) :
    IndexState × List String :=
  match op.type with
  | .set =>
    match op.language, op.value with
    | some l, some v =>
      if l = "" then
        (acc.1, acc.2 ++
          ["Operation failed for " ++ op.keyPath ++
            ": Set operation requires language and value"])
      else
        let r := TranslationIndex.set acc.1 op.keyPath l v none
        match r.2 with
        | some m =>
          (r.1, acc.2 ++ ["Operation failed for " ++ op.keyPath ++ ": " ++ m])
        | none => (r.1, acc.2)
    | _, _ =>
      (acc.1, acc.2 ++
        ["Operation failed for " ++ op.keyPath ++
          ": Set operation requires language and value"])
  | .delete => ((TranslationIndex.delete acc.1 op.keyPath op.language).1, acc.2)

/-- Fold of `applyOp` over the operation array (the `for` pass of
batchUpdate, accumulating error strings). -/
def runOps (s : IndexState) (ops : List BatchOperation) :
    IndexState × List String :=
  ops.foldl applyOp (s, [])

/-- TranslationBatchOperations.batchUpdate: take a shallow backup of the
flat index (`new Map(flatIndex)` — key→reference pairs only, the entry
objects stay shared), run the pass, then either roll the flat index
back to the backup (clearing the cache, marking keys dirty) and report
failure, or keep the mutation, clear the cache and emit `batchUpdate`.
Returns (state, success, errors). -/
def batchUpdate (s : IndexState) (ops : List BatchOperation) :
    IndexState × Bool × List String :=
  let backup := s.flatIndex
  let r := runOps s ops
  if r.2.isEmpty then
    let s2 := { r.1 with keysDirty := true, cache := [] }
    ({ s2 with log := s2.log ++ [Event.batchUpdate ops] }, true, [])
  else
    ({ r.1 with flatIndex := backup, keysDirty := true, cache := [] }, false, r.2)

end TranslationBatchOperations

/-- Search scope (`'keys' | 'values' | 'both'`). -/
inductive Scope where
  | keys
  | values
  | both
deriving DecidableEq, Repr

/-- SearchOptions (src/types); `maxResults`/`languages` absent is
`none`, and a present `maxResults` of 0 is JS-falsy in the limit check. -/
structure SearchOptions where
  scope : Scope
  languages : Option (List String)
  maxResults : Option Nat
  caseSensitive : Bool
deriving DecidableEq, Repr

/-- Match kind of a search result. -/
inductive MatchType where
  | key
  | value
  | both
deriving DecidableEq, Repr

/-- SearchResult.  Scores are multiples of 0.1 in the source
(1.0/0.9/0.8/0.7/0.6/0.5/0.4); they are represented in tenths as
naturals, which preserves every comparison the code performs. -/
structure SearchResult where
  keyPath : String
  translations : LangMap
  score : Nat
  matchType : MatchType
deriving DecidableEq, Repr

namespace TranslationSearchEngine

/-- calculateKeyScore: exact 1.0, starts-with 0.9, includes 0.7,
fallback 0.5 (in tenths). -/
def calculateKeyScore (key query : String) : Nat :=
  if key = query then 10
  else if strStarts key query then 9
  else if strIncl key query then 7
  else 5

/-- calculateValueScore: exact 1.0, starts-with 0.8, includes 0.6,
fallback 0.4 (in tenths). -/
def calculateValueScore (value query : String) : Nat :=
  if value = query then 10
  else if strStarts value query then 8
  else if strIncl value query then 6
  else 4

/-- Language filter guard (`options.languages && !includes(lang)`). -/
def langPass (opts : SearchOptions) (lang : String) : Bool :=
  match opts.languages with
  | some ls => ls.contains lang
  | none => true

/-- JS-truthy limit check `options.maxResults && results.length >=
options.maxResults`. -/
def maxReached (opts : SearchOptions) (results : List SearchResult) : Bool :=
  match opts.maxResults with
  | some m => decide (m ≠ 0) && decide (m ≤ results.length)
  | none => false

/-- Per-entry value-match scan: best matching language's value score
and the running matchType update (`matchType === 'key' ? 'both' :
'value'`). -/
def valueScan (opts : SearchOptions) (searchQuery : String)
    (entry : LangMap) (score0 : Nat) (mt0 : Option MatchType) :
    Nat × Option MatchType :=
  entry.foldl
    (fun acc p =>
      if !langPass opts p.1 then acc
      else
        let valueStr := p.2.value.toStr
        let valueToCheck := if opts.caseSensitive then valueStr else jsToLower valueStr
        if strIncl valueToCheck searchQuery then
          let valueScore := calculateValueScore valueToCheck searchQuery
          if valueScore > acc.1 then
            (valueScore, some (if acc.2 = some .key then .both else .value))
          else acc
        else acc)
    (score0, mt0)

/-- Final push of one scanned key: append the language-filtered result
when something matched (`matchType && score > 0`) and the filtered
translations are non-empty. -/
def pushResult (results : List SearchResult) (keyPath : String)
    (filteredEntry : LangMap) (sm : Nat × Option MatchType) : List SearchResult :=
  match sm.2 with
  | some mt =>
    if sm.1 > 0 && !filteredEntry.isEmpty then
      results ++ [⟨keyPath, filteredEntry, sm.1, mt⟩]
    else results
  | none => results

/-- Per-key body of the search scan: score the key match (when the
scope covers keys) and the best value match (when the scope covers
values), then push. -/
def processKey (flat : List (String × LangMap)) (q : String)
    (opts : SearchOptions) (keyPath : String) (entry : LangMap)
    (results : List SearchResult) : List SearchResult :=
  let searchQuery := if opts.caseSensitive then q else jsToLower q
  let keyToCheck := if opts.caseSensitive then keyPath else jsToLower keyPath
  let keyMatch := opts.scope = .keys || opts.scope = .both
  let km :=
    if keyMatch && strIncl keyToCheck searchQuery then
      (calculateKeyScore keyToCheck searchQuery, some MatchType.key)
    else (0, none)
  let valueMatch := opts.scope = .values || opts.scope = .both
  let sm :=
    if valueMatch then valueScan opts searchQuery entry km.1 km.2
    else km
  let filteredEntry := entry.filter (fun p => langPass opts p.1)
  pushResult results keyPath filteredEntry sm

/-- Main scan of TranslationSearchEngine.search: walk the sorted key
list, process each present key, and break once `maxResults` is reached
(checked after every processed key; absent keys are skipped without the
check, mirroring the `continue`). -/
def searchLoop (flat : List (String × LangMap)) (q : String)
    (opts : SearchOptions) : List String → List SearchResult → List SearchResult
  | [], results => results
  | keyPath :: rest, results =>
    match alookup flat keyPath with
    | none => searchLoop flat q opts rest results
    | some entry =>
      let results2 := processKey flat q opts keyPath entry results
      if maxReached opts results2 then results2
      else searchLoop flat q opts rest results2

/-- Stable insertion (descending by score) modelling the final JS
`results.sort((a, b) => b.score - a.score)`. -/
def insertByScore (x : SearchResult) : List SearchResult → List SearchResult
  | [] => [x]
  | h :: t => if h.score ≤ x.score then x :: h :: t else h :: insertByScore x t

/-- JS stable sort by score descending. -/
def sortByScore : List SearchResult → List SearchResult
  | [] => []
  | h :: t => insertByScore h (sortByScore t)

/-- TranslationSearchEngine.search: scan then sort by score
descending. -/
def search (flat : List (String × LangMap)) (sortedKeys : List String)
    (q : String) (opts : SearchOptions) : List SearchResult :=
  sortByScore (searchLoop flat q opts sortedKeys [])

/-- Shared lower-bound loop of binarySearchStart / binarySearchEnd
(their `while` bodies are identical up to the target string).  The
`fuel` argument structurally bounds the iteration count; every call
supplies at least `right - left + 1`, which the loop never exceeds
since the span shrinks every iteration. -/
def bsLowerGo (keys : List String) (tgt : String) :
    Nat → Nat → Nat → Nat
  | 0, left, _ => left
  | fuel + 1, left, right =>
    if left < right then
      let mid := (left + right) / 2
      let key := keys.getD mid ""
      if key ≠ "" && strLt key tgt then bsLowerGo keys tgt fuel (mid + 1) right
      else bsLowerGo keys tgt fuel left mid
    else left

/-- binarySearchStart: first index whose key is ≥ the target. -/
def binarySearchStart (keys : List String) (p : String) : Nat :=
  bsLowerGo keys p (keys.length + 1) 0 keys.length

/-- Sentinel `'￿'` appended by binarySearchEnd. -/
def sentChar : Char := '￿'

/-- binarySearchEnd: last index whose key is < target + sentinel
(may be -1, hence the Int result, exactly as `left - 1` in JS). -/
def binarySearchEnd (keys : List String) (p : String) : Int :=
  (bsLowerGo keys (p ++ String.mk [sentChar]) (keys.length + 1) 0 keys.length : Int) - 1

/-- searchByPrefix: the contiguous slice
`sortedKeys.slice(startIdx, endIdx + 1)` between the two binary-search
boundaries. -/
def searchByPrefix (sortedKeys : List String) (p : String) : List String :=
  let startIdx := binarySearchStart sortedKeys p
  let endIdx := binarySearchEnd sortedKeys p
  ((sortedKeys.drop startIdx).take ((endIdx + 1).toNat - startIdx))

end TranslationSearchEngine

/-- ContextOptions: traversal depth and optional language filter. -/
structure ContextOptions where
  depth : Nat
  languages : Option (List String)
deriving DecidableEq, Repr

/-- One related key (parent/child/sibling) with its filtered
translations. -/
structure KeyedTranslations where
  keyPath : String
  translations : LangMap
deriving DecidableEq, Repr

/-- ContextResult of getContext. -/
structure ContextResult where
  keyPath : String
  translations : LangMap
  parent : Option KeyedTranslations
  children : List KeyedTranslations
  siblings : List KeyedTranslations
deriving DecidableEq, Repr

namespace TranslationContextEngine

/-- Language filtering of an entry map (rebuild in property order). -/
def filterLangs (opts : ContextOptions) (m : LangMap) : LangMap :=
  m.filter (fun p =>
    match opts.languages with
    | none => true
    | some ls => ls.contains p.1)

/-- Loop body of getContext's single pass over the sorted keys:
append `other` to the children when it is a (strict-descendant) child
of the key path with non-empty filtered translations, and to the
siblings when it is a child of the parent path other than the key
itself. -/
def contextStep (flat : List (String × LangMap)) (opts : ContextOptions)
    (keyPath : String) (parentPath : Option String)
    (acc : List KeyedTranslations × List KeyedTranslations) (other : String) :
    List KeyedTranslations × List KeyedTranslations :=
  let acc1 :=
    if PathParser.isChildOf other keyPath then
      match alookup flat other with
      | some childEntry =>
        let f := filterLangs opts childEntry
        if f.isEmpty then acc.1 else acc.1 ++ [⟨other, f⟩]
      | none => acc.1
    else acc.1
  let acc2 :=
    match parentPath with
    | some pp =>
      if PathParser.isChildOf other pp && other ≠ keyPath then
        match alookup flat other with
        | some sibEntry =>
          let f := filterLangs opts sibEntry
          if f.isEmpty then acc.2 else acc.2 ++ [⟨other, f⟩]
        | none => acc.2
      else acc.2
    | none => acc.2
  (acc1, acc2)

/-- TranslationContextEngine.getContext: the key's own filtered
translations, a real or virtual parent (when depth > 0), and one pass
over the sorted keys collecting children (`isChildOf(other, keyPath)`)
and siblings (`isChildOf(other, parentPath)`), each kept only when its
filtered translations are non-empty. -/
def getContext (flat : List (String × LangMap)) (sortedKeys : List String)
    (keyPath : String) (opts : ContextOptions) : Option ContextResult :=
  match alookup flat keyPath with
  | none => none
  | some entry =>
    let filteredEntry := filterLangs opts entry
    let parentPath := PathParser.getParent keyPath
    let parent : Option KeyedTranslations :=
      match parentPath with
      | some pp =>
        if opts.depth > 0 then
          match alookup flat pp with
          | some parentEntry => some ⟨pp, filterLangs opts parentEntry⟩
          | none =>
            if sortedKeys.any (fun key => key ≠ keyPath && PathParser.isChildOf key pp)
            then some ⟨pp, []⟩
            else none
        else none
      | none => none
    let pass := sortedKeys.foldl (contextStep flat opts keyPath parentPath) ([], [])
    some ⟨keyPath, filteredEntry, parent, pass.1, pass.2⟩

end TranslationContextEngine

/-- JSON document tree for a translation file: nested objects with
scalar leaves (spec §6 on-disk format). -/
inductive Json where
  | str (s : String)
  | num (n : Int)
  | bool (b : Bool)
  | obj (fields : List (String × Json))

/-- Scalar embedded as a JSON leaf. -/
def Json.ofScalar : Scalar → Json
  | .str s => .str s
  | .num n => .num n
  | .bool b => .bool b

namespace Jsonc

/-- Modelled from the spec: `modify` of the required JSON syntax-tree
editor collaborator (the jsonc-parser package, spec §6 — not part of
this repository).  Setting a value at a dot path replaces the value if
the full path resolves, creates missing nested objects under the
deepest resolvable object, and fails (the error syncLanguageToFile
catches per key) when the path must traverse an existing non-object
node.  `none` is the thrown error; `some` carries the edited document
(`edits` is non-empty exactly on success). -/
def modifyValue (j : Json) (path : List String) (v : Json) : Option Json :=
  match path, j with
  | [], _ => some v
  | seg :: rest, .obj fields =>
    match alookup fields seg with
    | some child =>
      match modifyValue child rest v with
      | some c2 => some (.obj (aset fields seg c2))
      | none => none
    | none =>
      some (.obj (fields ++ [(seg, rest.foldr (fun s acc => Json.obj [(s, acc)]) v)]))
  | _ :: _, _ => none

end Jsonc

/-- Structural conflict of a dot path against a document (glossary:
"an attempt to write a nested key path through a file location
currently occupied by a scalar value"): some traversed segment resolves
to an existing non-object while deeper segments remain. -/
def pathConflicts : Json → List String → Bool
  | _, [] => false
  | .obj fields, seg :: rest =>
    (match alookup fields seg with
     | some child => pathConflicts child rest
     | none => false)
  | _, _ :: _ => true

/-- findConflictingPath (src, file-validation utilities): walk the
parsed tree along the key parts, reporting the traversed segments up to
the first primitive value (or the segments before a non-object), `none`
when a segment is absent or the walk completes. -/
def findConflictingPathGo : Json → List String → List String → Option (List String)
  | _, [], _ => none
  | current, part :: rest, acc =>
    match current with
    | .obj fields =>
      (match alookup fields part with
       | none => none
       | some valueNode =>
         match valueNode with
         | .str _ => some (acc ++ [part])
         | .num _ => some (acc ++ [part])
         | .bool _ => some (acc ++ [part])
         | .obj _ => findConflictingPathGo valueNode rest (acc ++ [part]))
    | _ => some acc

/-- findConflictingPath entry point (conflictPath starts empty). -/
def findConflictingPath (tree : Json) (keyParts : List String) : Option (List String) :=
  findConflictingPathGo tree keyParts []

namespace TranslationMCPServer

/-- Per-key edit loop of TranslationMCPServer.syncLanguageToFile: for
each pending key (a key path holding a value in this language, in
sorted-key order) attempt the jsonc `modify`; a throwing edit is caught
and skipped ("Continue with other keys instead of failing completely"),
a successful edit is applied and counted.  Returns the final document
and `changesMade`; the file is written iff `changesMade > 0`, otherwise
its text is untouched. -/
def syncLanguageToFile (content : Json) (pending : List (String × Scalar)) :
    Json × Nat :=
  pending.foldl
    (fun acc kv =>
      match Jsonc.modifyValue acc.1 (jsSplitDot kv.1) (Json.ofScalar kv.2) with
      | some j2 => (j2, acc.2 + 1)
      | none => acc)
    (content, 0)

end TranslationMCPServer

theorem alookup_eq_none_iff {α : Type} (l : List (String × α)) (k : String) :
    alookup l k = none ↔ k ∉ l.map Prod.fst := by
  induction l with
  | nil => simp [alookup]
  | cons p rest ih =>
    obtain ⟨a, b⟩ := p
    by_cases h : a = k
    · subst h; simp [alookup]
    · simp [alookup, h, ih, Ne.symm h]

theorem alookup_some_mem {α : Type} {l : List (String × α)} {k : String} {v : α}
    (h : alookup l k = some v) : (k, v) ∈ l := by
  induction l with
  | nil => simp [alookup] at h
  | cons p rest ih =>
    obtain ⟨a, b⟩ := p
    by_cases hk : a = k
    · subst hk; simp [alookup] at h; simp [h]
    · simp [alookup, hk] at h
      exact List.mem_cons_of_mem _ (ih h)

theorem nlookup_some_mem {α : Type} {l : List (Nat × α)} {k : Nat} {v : α}
    (h : nlookup l k = some v) : (k, v) ∈ l := by
  induction l with
  | nil => simp [nlookup] at h
  | cons p rest ih =>
    obtain ⟨a, b⟩ := p
    by_cases hk : a = k
    · subst hk; simp [nlookup] at h; simp [h]
    · simp [nlookup, hk] at h
      exact List.mem_cons_of_mem _ (ih h)

theorem alookup_aset_self {α : Type} (l : List (String × α)) (k : String) (v : α) :
    alookup (aset l k v) k = some v := by
  induction l with
  | nil => simp [aset, alookup]
  | cons p rest ih =>
    obtain ⟨a, b⟩ := p
    by_cases h : a = k
    · simp [aset, h, alookup]
    · simp [aset, h, alookup, ih]

theorem alookup_aset_ne {α : Type} (l : List (String × α)) (k k2 : String) (v : α)
    (h : k2 ≠ k) : alookup (aset l k v) k2 = alookup l k2 := by
  induction l with
  | nil => simp [aset, alookup, Ne.symm h]
  | cons p rest ih =>
    obtain ⟨a, b⟩ := p
    by_cases ha : a = k
    · subst ha
      simp [aset, alookup, Ne.symm h]
    · simp [aset, ha, alookup, ih]

theorem nlookup_nset_self {α : Type} (l : List (Nat × α)) (k : Nat) (v : α) :
    nlookup (nset l k v) k = some v := by
  induction l with
  | nil => simp [nset, nlookup]
  | cons p rest ih =>
    obtain ⟨a, b⟩ := p
    by_cases h : a = k
    · simp [nset, h, nlookup]
    · simp [nset, h, nlookup, ih]

theorem nlookup_nset_ne {α : Type} (l : List (Nat × α)) (k k2 : Nat) (v : α)
    (h : k2 ≠ k) : nlookup (nset l k v) k2 = nlookup l k2 := by
  induction l with
  | nil => simp [nset, nlookup, Ne.symm h]
  | cons p rest ih =>
    obtain ⟨a, b⟩ := p
    by_cases ha : a = k
    · subst ha
      simp [nset, nlookup, Ne.symm h]
    · simp [nset, ha, nlookup, ih]

theorem alookup_aremove_ne {α : Type} (l : List (String × α)) (k k2 : String)
    (h : k2 ≠ k) : alookup (aremove l k) k2 = alookup l k2 := by
  induction l with
  | nil => simp [aremove]
  | cons p rest ih =>
    obtain ⟨a, b⟩ := p
    by_cases ha : a = k
    · subst ha
      simp [aremove, alookup, Ne.symm h]
    · simp [aremove, ha, alookup, ih]

theorem alookup_aremove_self {α : Type} (l : List (String × α)) (k : String)
    (hn : (l.map Prod.fst).Nodup) : alookup (aremove l k) k = none := by
  induction l with
  | nil => simp [aremove, alookup]
  | cons p rest ih =>
    obtain ⟨a, b⟩ := p
    simp only [List.map_cons, List.nodup_cons] at hn
    by_cases ha : a = k
    · subst ha
      simp only [aremove, if_pos rfl]
      exact (alookup_eq_none_iff rest a).mpr hn.1
    · simp [aremove, ha, alookup, ih hn.2]

theorem alookup_filterKey_self {α : Type} (l : List (String × α)) (k : String) :
    alookup (l.filter (fun p => p.1 ≠ k)) k = none := by
  induction l with
  | nil => simp [alookup]
  | cons p rest ih =>
    obtain ⟨a, b⟩ := p
    by_cases ha : a = k
    · rw [List.filter_cons, if_neg (by simp [ha])]
      exact ih
    · rw [List.filter_cons, if_pos (by simp [ha])]
      simp only [alookup, ha, if_false]
      exact ih

theorem alookup_filterKey_ne {α : Type} (l : List (String × α)) (k k2 : String)
    (h : k2 ≠ k) : alookup (l.filter (fun p => p.1 ≠ k)) k2 = alookup l k2 := by
  induction l with
  | nil => simp
  | cons p rest ih =>
    obtain ⟨a, b⟩ := p
    by_cases ha : a = k
    · subst ha
      rw [List.filter_cons, if_neg (by simp)]
      rw [ih]
      simp [alookup, Ne.symm h]
    · rw [List.filter_cons, if_pos (by simp [ha])]
      simp only [alookup]
      rw [ih]

theorem alookup_append_of_none {α : Type} (l1 l2 : List (String × α)) (k : String)
    (h : alookup l1 k = none) : alookup (l1 ++ l2) k = alookup l2 k := by
  induction l1 with
  | nil => simp
  | cons p rest ih =>
    obtain ⟨a, b⟩ := p
    by_cases ha : a = k
    · simp [alookup, ha] at h
    · simp [alookup, ha] at h ⊢
      exact ih h

theorem charsStarts_append (a b : List Char) : charsStarts (a ++ b) a = true := by
  induction a with
  | nil => cases b <;> simp [charsStarts]
  | cons c rest ih => simpa [charsStarts] using ih

theorem strStarts_append_right (x y : String) : strStarts (x ++ y) x = true := by
  simpa [strStarts] using charsStarts_append x.data y.data

theorem charsStarts_trans_of_append (a p q : List Char)
    (h : charsStarts a (p ++ q) = true) : charsStarts a p = true := by
  induction p generalizing a with
  | nil => cases a <;> simp [charsStarts]
  | cons c rest ih =>
    cases a with
    | nil => simp [charsStarts] at h
    | cons d ds =>
      simp only [List.cons_append, charsStarts] at h ⊢
      by_cases hd : d = c
      · simp [hd] at h ⊢; exact ih ds h
      · simp [hd] at h

theorem alookup_invalidate_of_starts (c : LRU) (k ck : String)
    (h : strStarts ck (k ++ ":") = true) :
    alookup (TranslationIndex.invalidateCache c k) ck = none := by
  induction c with
  | nil => rfl
  | cons p rest ih =>
    obtain ⟨a, v⟩ := p
    unfold TranslationIndex.invalidateCache at ih ⊢
    rw [List.filter_cons]
    by_cases hp : (!(strStarts a (k ++ ":") || decide (a = k ++ ":all"))) = true
    · rw [if_pos hp]
      have ha : a ≠ ck := by
        intro hak
        subst hak
        simp [h] at hp
      simp only [alookup]
      rw [if_neg ha]
      exact ih
    · rw [if_neg hp]
      exact ih

theorem mem_insertSorted (x a : String) (l : List String) :
    a ∈ TranslationIndex.insertSorted x l ↔ a ∈ l ∨ a = x := by
  induction l with
  | nil =>
    simp [TranslationIndex.insertSorted]
  | cons h t ih =>
    by_cases hlt : strLt x h = true
    · simp [TranslationIndex.insertSorted, hlt]
      tauto
    · simp [TranslationIndex.insertSorted, hlt, ih]
      tauto

theorem mem_sortStrings (a : String) (l : List String) :
    a ∈ TranslationIndex.sortStrings l ↔ a ∈ l := by
  induction l with
  | nil => simp [TranslationIndex.sortStrings]
  | cons h t ih =>
    simp [TranslationIndex.sortStrings, mem_insertSorted, ih]
    tauto

theorem set_flatIndex_of_found (s : IndexState) (k l : String) (v : Scalar)
    (m : Option TranslationEntry) (r : Nat)
    (hv : PathParser.isValid k = true) (hf : alookup s.flatIndex k = some r) :
    (TranslationIndex.set s k l v m).1.flatIndex = s.flatIndex := by
  simp [TranslationIndex.set, hv, hf, apply_ite IndexState.flatIndex]

theorem set_flatIndex_of_new (s : IndexState) (k l : String) (v : Scalar)
    (m : Option TranslationEntry)
    (hv : PathParser.isValid k = true) (hf : alookup s.flatIndex k = none) :
    (TranslationIndex.set s k l v m).1.flatIndex = s.flatIndex ++ [(k, s.nextRef)] := by
  simp [TranslationIndex.set, hv, hf, apply_ite IndexState.flatIndex]

theorem set_of_invalid (s : IndexState) (k l : String) (v : Scalar)
    (m : Option TranslationEntry) (hv : PathParser.isValid k = false) :
    TranslationIndex.set s k l v m = (s, some ("Invalid key path: " ++ k)) := by
  simp [TranslationIndex.set, hv]

theorem set_err_of_valid (s : IndexState) (k l : String) (v : Scalar)
    (m : Option TranslationEntry) (hv : PathParser.isValid k = true) :
    (TranslationIndex.set s k l v m).2 = none := by
  cases hf : alookup s.flatIndex k <;>
    simp [TranslationIndex.set, hv, hf, apply_ite Prod.snd]

theorem set_now (s : IndexState) (k l : String) (v : Scalar)
    (m : Option TranslationEntry) :
    (TranslationIndex.set s k l v m).1.now = s.now := by
  by_cases hv : PathParser.isValid k
  · cases hf : alookup s.flatIndex k <;>
      simp [TranslationIndex.set, hv, hf, apply_ite IndexState.now]
  · simp [TranslationIndex.set, Bool.of_not_eq_true hv]

theorem set_log_of_valid (s : IndexState) (k l : String) (v : Scalar)
    (m : Option TranslationEntry) (hv : PathParser.isValid k = true) :
    (TranslationIndex.set s k l v m).1.log =
      s.log ++ [Event.set k l v (TranslationIndex.mkEntry v m s.now)] := by
  cases hf : alookup s.flatIndex k <;>
    simp [TranslationIndex.set, hv, hf, apply_ite IndexState.log]

theorem set_cache_of_valid (s : IndexState) (k l : String) (v : Scalar)
    (m : Option TranslationEntry) (hv : PathParser.isValid k = true) :
    (TranslationIndex.set s k l v m).1.cache =
      TranslationIndex.invalidateCache s.cache k := by
  cases hf : alookup s.flatIndex k <;>
    simp [TranslationIndex.set, hv, hf, apply_ite IndexState.cache]

theorem set_heap_of_found (s : IndexState) (k l : String) (v : Scalar)
    (m : Option TranslationEntry) (r : Nat)
    (hv : PathParser.isValid k = true) (hf : alookup s.flatIndex k = some r) :
    (TranslationIndex.set s k l v m).1.heap =
      nset s.heap r
        (aset ((nlookup s.heap r).getD []) l (TranslationIndex.mkEntry v m s.now)) := by
  simp [TranslationIndex.set, hv, hf, apply_ite IndexState.heap]

theorem set_heap_of_new (s : IndexState) (k l : String) (v : Scalar)
    (m : Option TranslationEntry)
    (hv : PathParser.isValid k = true) (hf : alookup s.flatIndex k = none) :
    (TranslationIndex.set s k l v m).1.heap =
      (s.nextRef, [(l, TranslationIndex.mkEntry v m s.now)]) :: s.heap := by
  simp [TranslationIndex.set, hv, hf, apply_ite IndexState.heap, nlookup, nset, aset]

/-- Initial index state (empty stores, default configuration), as built
by the TranslationIndex constructor. -/
def emptyState : IndexState :=
  { heap := []
    nextRef := 0
    flatIndex := []
    reverseIndex := []
    structureTemplate := []
    cache := []
    maxCacheSize := 10000
    baseLanguage := "en"
    sortedKeys := []
    keysDirty := false
    log := []
    now := 0 }

/-- C6: for every malformed key path and any language and value, `set`
throws IndexError and performs no mutation — the returned state (flat
index, caches, sorted key list included) is exactly the argument state;
and every key path stored in the flat index store passes validation:
a `set` preserves all-keys-valid for arbitrary arguments, and `delete`
never adds key paths. -/
theorem c6_malformed_set_fails_fast (s : IndexState) :
    (∀ k l v m, PathParser.isValid k = false →
        TranslationIndex.set s k l v m = (s, some ("Invalid key path: " ++ k))) ∧
    (∀ k l v m, (∀ key ∈ TranslationIndex.keySet s, PathParser.isValid key = true) →
        ∀ key ∈ TranslationIndex.keySet (TranslationIndex.set s k l v m).1,
          PathParser.isValid key = true) ∧
    (∀ k lang, ∀ key ∈ TranslationIndex.keySet (TranslationIndex.delete s k lang).1,
        key ∈ TranslationIndex.keySet s) := by
  refine ⟨?_, ?_, ?_⟩
  · intro k l v m h
    exact set_of_invalid s k l v m h
  · intro k l v m hall key hkey
    by_cases hv : PathParser.isValid k
    · cases hf : alookup s.flatIndex k with
      | some r =>
        rw [TranslationIndex.keySet, set_flatIndex_of_found s k l v m r hv hf] at hkey
        exact hall key hkey
      | none =>
        rw [TranslationIndex.keySet, set_flatIndex_of_new s k l v m hv hf] at hkey
        simp only [List.map_append, List.map_cons, List.map_nil, List.mem_append,
          List.mem_cons, List.not_mem_nil, or_false] at hkey
        rcases hkey with hkey | hkey
        · exact hall key hkey
        · subst hkey; exact hv
    · rw [TranslationIndex.keySet, set_of_invalid s k l v m (Bool.of_not_eq_true hv)] at hkey
      exact hall key hkey
  · intro k lang key hkey
    unfold TranslationIndex.delete at hkey
    cases hf : alookup s.flatIndex k with
    | none =>
      rw [hf] at hkey
      exact hkey
    | some r =>
      rw [hf] at hkey
      cases lang with
      | none =>
        simp only [TranslationIndex.keySet, List.mem_map] at hkey ⊢
        obtain ⟨p, hp, hpe⟩ := hkey
        exact ⟨p, (List.mem_filter.mp hp).1, hpe⟩
      | some l =>
        by_cases hle : l = ""
        · simp only [hle, if_pos rfl] at hkey
          simp only [TranslationIndex.keySet, List.mem_map] at hkey ⊢
          obtain ⟨p, hp, hpe⟩ := hkey
          exact ⟨p, (List.mem_filter.mp hp).1, hpe⟩
        · simp only [if_neg hle] at hkey
          by_cases hl : (alookup ((nlookup s.heap r).getD []) l).isSome = true
          · simp only [hl, if_true] at hkey
            by_cases he : (aremove ((nlookup s.heap r).getD []) l).isEmpty = true
            · simp only [he, if_true] at hkey
              simp only [TranslationIndex.keySet, List.mem_map] at hkey ⊢
              obtain ⟨p, hp, hpe⟩ := hkey
              exact ⟨p, (List.mem_filter.mp hp).1, hpe⟩
            · simp only [he, if_false] at hkey
              simpa using hkey
          · simp only [hl, if_false] at hkey
            simpa using hkey

/-- C6 witness: the malformed path "a..b" is rejected with no mutation
on a concrete state, and validity of all stored keys is preserved. -/
theorem c6_malformed_set_fails_fast_witness :
    TranslationIndex.set emptyState "a..b" "en" (.str "x") none =
      (emptyState, some "Invalid key path: a..b") :=
  (c6_malformed_set_fails_fast emptyState).1 "a..b" "en" (.str "x") none (by decide)

theorem snd_inj_of_nodup {α β : Type} {l : List (α × β)}
    (hn : (l.map Prod.snd).Nodup) {a b : α} {x y : β}
    (ha : (a, x) ∈ l) (hb : (b, y) ∈ l) (hab : a ≠ b) : x ≠ y := by
  intro hxy
  subst hxy
  have := List.inj_on_of_nodup_map hn ha hb rfl
  exact hab (congrArg Prod.fst this)

/-- Invariant of the data model (spec §3): no key path in the flat
index owns an empty entry map. -/
def NoEmptyEntry (s : IndexState) : Prop :=
  ∀ p ∈ s.flatIndex, ¬ nlookup s.heap p.2 = some []

instance (s : IndexState) : Decidable (NoEmptyEntry s) := by
  unfold NoEmptyEntry; infer_instance

/-- C4: deleting the last remaining language of a key path removes the
key path entirely — the delete reports true, `has` is false, the key is
absent from `getKeys()` — and (given a well-formed state) the
no-empty-entry invariant is preserved. -/
theorem c4_tombstone_last_language (s : IndexState) (k l : String) (r : Nat)
    (te : TranslationEntry)
    (hf : alookup s.flatIndex k = some r)
    (hc : nlookup s.heap r = some [(l, te)]) :
    (TranslationIndex.delete s k (some l)).2 = true ∧
    TranslationIndex.has (TranslationIndex.delete s k (some l)).1 k none = false ∧
    k ∉ (TranslationIndex.getKeys (TranslationIndex.delete s k (some l)).1).1 ∧
    (Wf s → NoEmptyEntry s → NoEmptyEntry (TranslationIndex.delete s k (some l)).1) := by
  by_cases hle : l = ""
  · have hdel : TranslationIndex.delete s k (some l) =
        ({ s with flatIndex := s.flatIndex.filter (fun p => p.1 ≠ k)
                  keysDirty := true
                  cache := TranslationIndex.invalidateCache s.cache k
                  log := s.log ++ [Event.delete k none] }, true) := by
      simp [TranslationIndex.delete, hf, hle]
    rw [hdel]
    refine ⟨rfl, ?_, ?_, ?_⟩
    · unfold TranslationIndex.has
      rw [alookup_filterKey_self]
    · intro hmem
      simp only [TranslationIndex.getKeys, TranslationIndex.ensureSortedKeys,
        if_true] at hmem
      rw [mem_sortStrings] at hmem
      simp only [List.mem_map] at hmem
      obtain ⟨p, hp, hpe⟩ := hmem
      have h2 := (List.mem_filter.mp hp).2
      simp [hpe] at h2
    · intro hw hne p hp hcontra
      exact hne p (List.mem_filter.mp hp).1 hcontra
  have hdel : TranslationIndex.delete s k (some l) =
      ({ s with heap := nset s.heap r []
                flatIndex := s.flatIndex.filter (fun p => p.1 ≠ k)
                keysDirty := true
                cache := TranslationIndex.invalidateCache s.cache k
                log := s.log ++ [Event.delete k (some l)] }, true) := by
    simp [TranslationIndex.delete, hf, hc, hle, alookup, aremove, List.isEmpty]
  rw [hdel]
  refine ⟨rfl, ?_, ?_, ?_⟩
  · unfold TranslationIndex.has
    rw [alookup_filterKey_self]
  · intro hmem
    simp only [TranslationIndex.getKeys, TranslationIndex.ensureSortedKeys,
      if_true] at hmem
    rw [mem_sortStrings] at hmem
    simp only [List.mem_map] at hmem
    obtain ⟨p, hp, hpe⟩ := hmem
    have h2 := (List.mem_filter.mp hp).2
    simp [hpe] at h2
  · intro hw hne p hp hcontra
    have hpmem := List.mem_filter.mp hp
    have hpk : p.1 ≠ k := by simpa using hpmem.2
    have hrne : p.2 ≠ r :=
      snd_inj_of_nodup hw.1 hpmem.1 (alookup_some_mem hf) hpk
    rw [nlookup_nset_ne s.heap r p.2 [] hrne] at hcontra
    exact hne p hpmem.1 hcontra

/-- Concrete state for the C4 witness: one key, one language. -/
def c4S : IndexState := (TranslationIndex.set emptyState "a.b" "en" (.str "v") none).1

/-- C4 witness: on the concrete one-language state, deleting the last
language of "a.b" removes it from existence and from `getKeys()`. -/
theorem c4_tombstone_last_language_witness :
    alookup c4S.flatIndex "a.b" = some 0 ∧
    (TranslationIndex.delete c4S "a.b" (some "en")).2 = true ∧
    TranslationIndex.has (TranslationIndex.delete c4S "a.b" (some "en")).1 "a.b" none = false ∧
    "a.b" ∉ (TranslationIndex.getKeys (TranslationIndex.delete c4S "a.b" (some "en")).1).1 :=
  ⟨by decide,
   (c4_tombstone_last_language c4S "a.b" "en" 0 ⟨.str "v", "", 0, 0, 0⟩
      (by decide) (by decide)).1,
   (c4_tombstone_last_language c4S "a.b" "en" 0 ⟨.str "v", "", 0, 0, 0⟩
      (by decide) (by decide)).2.1,
   (c4_tombstone_last_language c4S "a.b" "en" 0 ⟨.str "v", "", 0, 0, 0⟩
      (by decide) (by decide)).2.2.1⟩

/-- C10 (amended): frame property of a single-language delete for a
non-empty language when other languages remain: the call returns true,
removes exactly that language's entry, and leaves every other language
of the key and every other key path (and the key set itself) untouched
in the store.  (With the empty-string language, `if (language)` is
falsy and the source deletes the entire key — see the
counterexample.) -/
theorem c10_single_language_delete_frame (s : IndexState) (k l l2 : String)
    (r : Nat) (cell : LangMap)
    (hw : Wf s)
    (hlne : l ≠ "")
    (hf : alookup s.flatIndex k = some r)
    (hc : nlookup s.heap r = some cell)
    (hl : (alookup cell l).isSome = true)
    (hne : l2 ≠ l) (hl2 : (alookup cell l2).isSome = true) :
    (TranslationIndex.delete s k (some l)).2 = true ∧
    TranslationIndex.storeVal (TranslationIndex.delete s k (some l)).1 k l = none ∧
    (∀ l3, l3 ≠ l →
      TranslationIndex.storeEntry (TranslationIndex.delete s k (some l)).1 k l3 =
        TranslationIndex.storeEntry s k l3) ∧
    (∀ k2, k2 ≠ k → ∀ l3,
      TranslationIndex.storeEntry (TranslationIndex.delete s k (some l)).1 k2 l3 =
        TranslationIndex.storeEntry s k2 l3) ∧
    TranslationIndex.keySet (TranslationIndex.delete s k (some l)).1 =
      TranslationIndex.keySet s := by
  have hcellmem : (r, cell) ∈ s.heap := nlookup_some_mem hc
  have hcnodup : (cell.map Prod.fst).Nodup := hw.2.2.1 (r, cell) hcellmem
  have hcell2 : (aremove cell l).isEmpty = false := by
    have h2 : alookup (aremove cell l) l2 = alookup cell l2 :=
      alookup_aremove_ne cell l l2 hne
    cases hrm : aremove cell l with
    | nil =>
      rw [hrm] at h2
      simp only [alookup] at h2
      rw [← h2] at hl2
      simp at hl2
    | cons a t => simp [List.isEmpty]
  have hdel : TranslationIndex.delete s k (some l) =
      ({ s with heap := nset s.heap r (aremove cell l)
                cache := TranslationIndex.invalidateCache s.cache k
                log := s.log ++ [Event.delete k (some l)] }, true) := by
    simp [TranslationIndex.delete, hf, hc, hl, hcell2, hlne]
  rw [hdel]
  refine ⟨rfl, ?_, ?_, ?_, rfl⟩
  · unfold TranslationIndex.storeVal TranslationIndex.storeEntry
    simp only [hf, Option.some_bind, nlookup_nset_self]
    rw [alookup_aremove_self cell l hcnodup]
    rfl
  · intro l3 hl3
    unfold TranslationIndex.storeEntry
    simp only [hf, Option.some_bind, nlookup_nset_self, hc]
    rw [alookup_aremove_ne cell l l3 hl3]
  · intro k2 hk2 l3
    unfold TranslationIndex.storeEntry
    cases hf2 : alookup s.flatIndex k2 with
    | none => rfl
    | some r2 =>
      have hr2 : r2 ≠ r :=
        snd_inj_of_nodup hw.1 (alookup_some_mem hf2) (alookup_some_mem hf) hk2
      simp only [Option.some_bind]
      rw [nlookup_nset_ne s.heap r r2 (aremove cell l) hr2]

/-- Concrete state for the C10 witness: key "a" in two languages plus a
second key "b". -/
def c10S : IndexState :=
  (TranslationIndex.set
    ((TranslationIndex.set
      ((TranslationIndex.set emptyState "a" "en" (.str "one") none).1)
      "a" "es" (.str "uno") none).1)
    "b" "en" (.str "two") none).1

/-- C10 witness: deleting "a"/"en" on the concrete two-language state
returns true, clears only that entry, and leaves "a"/"es", "b"/"en" and
the key set unchanged. -/
theorem c10_single_language_delete_frame_witness :
    Wf c10S ∧
    (TranslationIndex.delete c10S "a" (some "en")).2 = true ∧
    TranslationIndex.storeVal (TranslationIndex.delete c10S "a" (some "en")).1 "a" "en" = none ∧
    TranslationIndex.storeEntry (TranslationIndex.delete c10S "a" (some "en")).1 "a" "es" =
      TranslationIndex.storeEntry c10S "a" "es" ∧
    TranslationIndex.storeEntry (TranslationIndex.delete c10S "a" (some "en")).1 "b" "en" =
      TranslationIndex.storeEntry c10S "b" "en" ∧
    TranslationIndex.keySet (TranslationIndex.delete c10S "a" (some "en")).1 =
      TranslationIndex.keySet c10S :=
  ⟨by decide,
   (c10_single_language_delete_frame c10S "a" "en" "es" 0
      [("en", ⟨.str "one", "", 0, 0, 0⟩), ("es", ⟨.str "uno", "", 0, 0, 0⟩)]
      (by decide) (by decide) (by decide) (by decide) (by decide) (by decide)
      (by decide)).1,
   (c10_single_language_delete_frame c10S "a" "en" "es" 0
      [("en", ⟨.str "one", "", 0, 0, 0⟩), ("es", ⟨.str "uno", "", 0, 0, 0⟩)]
      (by decide) (by decide) (by decide) (by decide) (by decide) (by decide)
      (by decide)).2.1,
   (c10_single_language_delete_frame c10S "a" "en" "es" 0
      [("en", ⟨.str "one", "", 0, 0, 0⟩), ("es", ⟨.str "uno", "", 0, 0, 0⟩)]
      (by decide) (by decide) (by decide) (by decide) (by decide) (by decide)
      (by decide)).2.2.1
      "es" (by decide),
   (c10_single_language_delete_frame c10S "a" "en" "es" 0
      [("en", ⟨.str "one", "", 0, 0, 0⟩), ("es", ⟨.str "uno", "", 0, 0, 0⟩)]
      (by decide) (by decide) (by decide) (by decide) (by decide) (by decide)
      (by decide)).2.2.2.1
      "b" (by decide) "en",
   (c10_single_language_delete_frame c10S "a" "en" "es" 0
      [("en", ⟨.str "one", "", 0, 0, 0⟩), ("es", ⟨.str "uno", "", 0, 0, 0⟩)]
      (by decide) (by decide) (by decide) (by decide) (by decide) (by decide)
      (by decide)).2.2.2.2⟩

/-- State for the C10 counterexample: key `a` holds the empty-string
language and `es`. -/
def c10BadS : IndexState :=
  (TranslationIndex.set
    (TranslationIndex.set emptyState "a" "" (.str "blank") none).1
    "a" "es" (.str "uno") none).1

/-- C10 counterexample: deleting with the empty-string language is
JS-falsy (`if (language)` fails), so the source deletes the entire key:
the untouched language `es` — present before — is gone afterwards and
the key set shrinks, refuting the per-language frame claim at
`language = ""` even on a well-formed state whose key has another
language left. -/
theorem c10_empty_language_deletes_whole_key :
    Wf c10BadS ∧
    (TranslationIndex.delete c10BadS "a" (some "")).2 = true ∧
    TranslationIndex.storeEntry c10BadS "a" "es" =
      some ⟨.str "uno", "", 0, 0, 0⟩ ∧
    TranslationIndex.storeEntry
      (TranslationIndex.delete c10BadS "a" (some "")).1 "a" "es" = none ∧
    TranslationIndex.keySet (TranslationIndex.delete c10BadS "a" (some "")).1 = [] ∧
    TranslationIndex.keySet c10BadS = ["a"] := by
  decide

theorem cacheKey_starts (k : String) (lang : Option String) :
    strStarts (TranslationIndex.cacheKeyOf k lang) (k ++ ":") = true := by
  unfold TranslationIndex.cacheKeyOf
  exact strStarts_append_right (k ++ ":") _

/-- C3 (amended): immediately after a successful `set(k,l,v)` with a
non-empty language, `get(k,l)` returns the freshly stored entry whose
value is `v` — regardless of whatever `get` results were cached before
the `set`, because `set` invalidates every cache entry under `k:`
before returning, so the following `get` cannot be served a value
written before this `set`.  (With the empty-string language, the
JS-falsy `language` makes `get` read the whole entry map under the
`k:all` cache key — see the counterexample.) -/
theorem c3_round_trip_after_set (s : IndexState) (k l : String) (v : Scalar)
    (hk : PathParser.isValid k = true) (hl : l ≠ "") :
    (TranslationIndex.get (TranslationIndex.set s k l v none).1 k (some l)).1 =
      some (CacheHit.entry (TranslationIndex.mkEntry v none s.now)) := by
  have hmiss : lruHas (TranslationIndex.set s k l v none).1.cache
      (TranslationIndex.cacheKeyOf k (some l)) = false := by
    unfold lruHas
    rw [set_cache_of_valid s k l v none hk,
      alookup_invalidate_of_starts _ _ _ (cacheKey_starts k (some l))]
    rfl
  cases hf : alookup s.flatIndex k with
  | some r =>
    have hflat := set_flatIndex_of_found s k l v none r hk hf
    have hheap := set_heap_of_found s k l v none r hk hf
    unfold TranslationIndex.get
    simp [hmiss, hflat, hf, hheap, hl, nlookup_nset_self, alookup_aset_self]
  | none =>
    have hflat := set_flatIndex_of_new s k l v none hk hf
    have hheap := set_heap_of_new s k l v none hk hf
    have hlook : alookup ((TranslationIndex.set s k l v none).1).flatIndex k
        = some s.nextRef := by
      rw [hflat, alookup_append_of_none _ _ _ hf]
      simp [alookup]
    unfold TranslationIndex.get
    simp [hmiss, hlook, hheap, hl, nlookup, alookup]

/-- Concrete state for the C3 witness: the result of a `get` that
cached the old value "old" for `a:en`. -/
def c3S : IndexState :=
  (TranslationIndex.get
    (TranslationIndex.set emptyState "a" "en" (.str "old") none).1 "a" (some "en")).2

/-- C3 witness: on a state whose cache holds the previously read value
of `a:en`, a new `set` followed by `get` yields the new value, not the
cached one. -/
theorem c3_round_trip_after_set_witness :
    lruHas c3S.cache "a:en" = true ∧
    (TranslationIndex.get
      (TranslationIndex.set c3S "a" "en" (.str "new") none).1 "a" (some "en")).1 =
      some (CacheHit.entry ⟨.str "new", "", 0, 0, 0⟩) :=
  ⟨by decide, c3_round_trip_after_set c3S "a" "en" (.str "new") (by decide) (by decide)⟩

/-- Discriminator for the shape of a cached/returned value: a fresh
`TranslationEntry` object versus a reference to the mutable entry map. -/
def CacheHit.isEntry : CacheHit → Bool
  | .entry _ => true
  | .ref _ => false

/-- C3 counterexample: with the empty-string language, `language` is
JS-falsy, so `get(k, "")` uses the `k:all` cache key and the
whole-entry branch: after `set(k, "", v)` it returns the mutable
entry-map reference, not a `TranslationEntry` carrying `v`, refuting
the unrestricted round-trip claim at `language = ""`. -/
theorem c3_empty_language_returns_whole_map :
    PathParser.isValid "a" = true ∧
    (TranslationIndex.get
      (TranslationIndex.set emptyState "a" "" (.str "v") none).1
      "a" (some "")).1 = some (CacheHit.ref 0) ∧
    ((TranslationIndex.get
      (TranslationIndex.set emptyState "a" "" (.str "v") none).1
      "a" (some "")).1.map CacheHit.isEntry) = some false ∧
    (TranslationIndex.get
      (TranslationIndex.set emptyState "a" "" (.str "v") none).1
      "a" (some "")).1 ≠
      some (CacheHit.entry (TranslationIndex.mkEntry (.str "v") none emptyState.now)) := by
  decide

/-- Initial state for the C1 failing input: "a.b" = "old" in en. -/
def c1S : IndexState :=
  (TranslationIndex.set emptyState "a.b" "en" (.str "old") none).1

/-- C1 failing batch: a set that overwrites the pre-existing key in
place, followed by a set with a malformed key path. -/
def c1Ops : List BatchOperation :=
  [⟨.set, "a.b", some "en", some (.str "new")⟩,
   ⟨.set, "bad..key", some "en", some (.str "x")⟩]

/-- C1 (code bug, evaluated at the failing input): the batch fails and
is "rolled back" — the key set is restored — yet the overwrite of the
pre-existing entry survives, because the backup is a shallow
`new Map(flatIndex)` whose values alias the very entry objects that
`set` mutates in place: after `{success:false}` the store reads "new"
where full rollback requires "old". -/
theorem c1_failed_batch_overwrite_survives_rollback :
    TranslationIndex.storeVal c1S "a.b" "en" = some (.str "old") ∧
    (TranslationBatchOperations.batchUpdate c1S c1Ops).2.1 = false ∧
    (TranslationBatchOperations.batchUpdate c1S c1Ops).2.2 ≠ [] ∧
    TranslationIndex.keySet (TranslationBatchOperations.batchUpdate c1S c1Ops).1 =
      TranslationIndex.keySet c1S ∧
    TranslationIndex.storeVal
        (TranslationBatchOperations.batchUpdate c1S c1Ops).1 "a.b" "en" =
      some (.str "new") :=
  ⟨by decide, by decide, by decide, by decide, by decide⟩

/-- Event kind test: the per-mutation events (`set`/`delete`) as
opposed to `clear`/`batchUpdate`. -/
def Event.isMut : Event → Bool
  | .set _ _ _ _ => true
  | .delete _ _ => true
  | _ => false

theorem delete_log_extends (s : IndexState) (k : String) (lang : Option String) :
    ∃ t, (TranslationIndex.delete s k lang).1.log = s.log ++ t ∧
      ∀ e ∈ t, Event.isMut e = true := by
  unfold TranslationIndex.delete
  cases hf : alookup s.flatIndex k with
  | none => exact ⟨[], by simp, by simp⟩
  | some r =>
    cases lang with
    | none => exact ⟨[Event.delete k none], by simp, by simp [Event.isMut]⟩
    | some l =>
      by_cases hle : l = ""
      · exact ⟨[Event.delete k none], by simp [hle], by simp [Event.isMut]⟩
      · by_cases hl : (alookup ((nlookup s.heap r).getD []) l).isSome = true
        · by_cases he : (aremove ((nlookup s.heap r).getD []) l).isEmpty = true
          · exact ⟨[Event.delete k (some l)], by simp [hle, hl, he],
              by simp [Event.isMut]⟩
          · exact ⟨[Event.delete k (some l)],
              by simp [hle, hl, Bool.eq_false_iff.mpr he], by simp [Event.isMut]⟩
        · exact ⟨[], by simp [hle, Bool.eq_false_iff.mpr hl], by simp⟩

theorem delete_now (s : IndexState) (k : String) (lang : Option String) :
    (TranslationIndex.delete s k lang).1.now = s.now := by
  unfold TranslationIndex.delete
  cases hf : alookup s.flatIndex k with
  | none => rfl
  | some r =>
    cases lang with
    | none => rfl
    | some l =>
      by_cases hle : l = ""
      · simp [hle]
      · by_cases hl : (alookup ((nlookup s.heap r).getD []) l).isSome = true
        · by_cases he : (aremove ((nlookup s.heap r).getD []) l).isEmpty = true
          · simp [hle, hl, he]
          · simp [hle, hl, Bool.eq_false_iff.mpr he]
        · simp [hle, Bool.eq_false_iff.mpr hl]

theorem applyOp_log_extends (acc : IndexState × List String) (op : BatchOperation) :
    ∃ t, (TranslationBatchOperations.applyOp acc op).1.log = acc.1.log ++ t ∧
      ∀ e ∈ t, Event.isMut e = true := by
  unfold TranslationBatchOperations.applyOp
  cases op with
  | mk ty kp lang val =>
    cases ty with
    | delete => exact delete_log_extends acc.1 kp lang
    | set =>
      cases lang with
      | none => cases val <;> exact ⟨[], by simp, by simp⟩
      | some l =>
        cases val with
        | none => exact ⟨[], by simp, by simp⟩
        | some v =>
          by_cases hle : l = ""
          · exact ⟨[], by simp [hle], by simp⟩
          · by_cases hv : PathParser.isValid kp = true
            · have herr := set_err_of_valid acc.1 kp l v none hv
              have hlog := set_log_of_valid acc.1 kp l v none hv
              refine ⟨[Event.set kp l v (TranslationIndex.mkEntry v none acc.1.now)],
                ?_, by simp [Event.isMut]⟩
              simp only [if_neg hle, herr, hlog]
            · have hv2 : PathParser.isValid kp = false := Bool.eq_false_iff.mpr hv
              have := set_of_invalid acc.1 kp l v none hv2
              refine ⟨[], ?_, by simp⟩
              simp [hle, this]

theorem applyOp_now (acc : IndexState × List String) (op : BatchOperation) :
    (TranslationBatchOperations.applyOp acc op).1.now = acc.1.now := by
  unfold TranslationBatchOperations.applyOp
  cases op with
  | mk ty kp lang val =>
    cases ty with
    | delete => exact delete_now acc.1 kp lang
    | set =>
      cases lang with
      | none => cases val <;> rfl
      | some l =>
        cases val with
        | none => rfl
        | some v =>
          by_cases hle : l = ""
          · simp [hle]
          · cases herr : (TranslationIndex.set acc.1 kp l v none).2 with
            | none => simpa [hle, herr] using set_now acc.1 kp l v none
            | some m => simpa [hle, herr] using set_now acc.1 kp l v none

theorem foldl_applyOp_log (ops : List BatchOperation) :
    ∀ acc : IndexState × List String, ∃ t,
      (ops.foldl TranslationBatchOperations.applyOp acc).1.log = acc.1.log ++ t ∧
      ∀ e ∈ t, Event.isMut e = true := by
  induction ops with
  | nil => intro acc; exact ⟨[], by simp, by simp⟩
  | cons op rest ih =>
    intro acc
    obtain ⟨t1, h1, hm1⟩ := applyOp_log_extends acc op
    obtain ⟨t2, h2, hm2⟩ := ih (TranslationBatchOperations.applyOp acc op)
    refine ⟨t1 ++ t2, ?_, ?_⟩
    · rw [List.foldl_cons, h2, h1, List.append_assoc]
    · intro e he
      rcases List.mem_append.mp he with h | h
      exacts [hm1 e h, hm2 e h]

theorem foldl_applyOp_now (ops : List BatchOperation) :
    ∀ acc : IndexState × List String,
      (ops.foldl TranslationBatchOperations.applyOp acc).1.now = acc.1.now := by
  induction ops with
  | nil => intro acc; rfl
  | cons op rest ih =>
    intro acc
    rw [List.foldl_cons, ih, applyOp_now]

theorem foldl_applyOp_set_event (ops : List BatchOperation) :
    ∀ acc : IndexState × List String, ∀ k l v,
      (⟨.set, k, some l, some v⟩ : BatchOperation) ∈ ops →
      l ≠ "" →
      PathParser.isValid k = true →
      Event.set k l v (TranslationIndex.mkEntry v none acc.1.now) ∈
        (ops.foldl TranslationBatchOperations.applyOp acc).1.log := by
  induction ops with
  | nil => simp
  | cons op rest ih =>
    intro acc k l v hmem hl hv
    rcases List.mem_cons.mp hmem with heq | hmem2
    · subst heq
      have herr := set_err_of_valid acc.1 k l v none hv
      have happ : TranslationBatchOperations.applyOp acc ⟨.set, k, some l, some v⟩ =
          ((TranslationIndex.set acc.1 k l v none).1, acc.2) := by
        unfold TranslationBatchOperations.applyOp
        simp [hl, herr]
      obtain ⟨t, ht, _⟩ :=
        foldl_applyOp_log rest (TranslationBatchOperations.applyOp acc ⟨.set, k, some l, some v⟩)
      rw [List.foldl_cons, ht, happ, set_log_of_valid acc.1 k l v none hv]
      simp
    · have hnow := applyOp_now acc op
      have := ih (TranslationBatchOperations.applyOp acc op) k l v hmem2 hl hv
      rw [hnow] at this
      rw [List.foldl_cons]
      exact this

/-- C9: when a batch fails and rolls back, the `set`/`delete` events
already emitted for operations that succeeded earlier in the batch stay
in the emission history (the log of the rolled-back state is the pass's
log: the prior history extended only by per-mutation events, never
retracted), no `batchUpdate` event is emitted, and every set operation
with a valid key path and a non-empty (JS-truthy) language has its
`set` event present. -/
theorem c9_failed_batch_keeps_emitted_events (s : IndexState)
    (ops : List BatchOperation)
    (hfail : (TranslationBatchOperations.runOps s ops).2 ≠ []) :
    (TranslationBatchOperations.batchUpdate s ops).2.1 = false ∧
    (TranslationBatchOperations.batchUpdate s ops).1.log =
      (TranslationBatchOperations.runOps s ops).1.log ∧
    (∃ t, (TranslationBatchOperations.batchUpdate s ops).1.log = s.log ++ t ∧
        ∀ e ∈ t, Event.isMut e = true) ∧
    (∀ k l v, (⟨.set, k, some l, some v⟩ : BatchOperation) ∈ ops →
        l ≠ "" →
        PathParser.isValid k = true →
        Event.set k l v (TranslationIndex.mkEntry v none s.now) ∈
          (TranslationBatchOperations.batchUpdate s ops).1.log) := by
  have hne : (TranslationBatchOperations.runOps s ops).2.isEmpty = false := by
    cases h : (TranslationBatchOperations.runOps s ops).2 with
    | nil => exact absurd h hfail
    | cons a t => simp
  unfold TranslationBatchOperations.batchUpdate
  simp only [hne, Bool.false_eq_true, if_false]
  refine ⟨trivial, trivial, ?_, ?_⟩
  · exact foldl_applyOp_log ops (s, [])
  · intro k l v hmem hl hv
    exact foldl_applyOp_set_event ops (s, []) k l v hmem hl hv

/-- Failing batch for the C9 witness. -/
def c9Ops : List BatchOperation :=
  [⟨.set, "greet", some "en", some (.str "hello")⟩,
   ⟨.set, "bad..k", some "en", some (.str "x")⟩]

/-- C9 witness: the concrete failed batch keeps the emitted `set` event
for the operation that succeeded before the rollback. -/
theorem c9_failed_batch_keeps_emitted_events_witness :
    (TranslationBatchOperations.runOps emptyState c9Ops).2 ≠ [] ∧
    (TranslationBatchOperations.batchUpdate emptyState c9Ops).2.1 = false ∧
    Event.set "greet" "en" (.str "hello") ⟨.str "hello", "", 0, 0, 0⟩ ∈
      (TranslationBatchOperations.batchUpdate emptyState c9Ops).1.log :=
  ⟨by decide,
   (c9_failed_batch_keeps_emitted_events emptyState c9Ops (by decide)).1,
   (c9_failed_batch_keeps_emitted_events emptyState c9Ops (by decide)).2.2.2
     "greet" "en" (.str "hello") (by decide) (by decide) (by decide)⟩

theorem modifyValue_none_of_conflicts (path : List String) :
    ∀ (j v : Json), pathConflicts j path = true →
      Jsonc.modifyValue j path v = none := by
  induction path with
  | nil =>
    intro j v h
    simp [pathConflicts] at h
  | cons seg rest ih =>
    intro j v h
    cases j with
    | obj fields =>
      unfold pathConflicts at h
      cases hf : alookup fields seg with
      | none => rw [hf] at h; simp at h
      | some child =>
        simp only [hf] at h
        unfold Jsonc.modifyValue
        simp only [hf, ih child v h]
    | str s2 => rfl
    | num n => rfl
    | bool b => rfl

/-- C2 (amended): when every pending key for the language structurally
conflicts with the file — each dot path must traverse an existing
non-object node — every per-key edit throws and is skipped, so
`changesMade` stays 0, no write occurs, and the file content is left
unchanged. -/
theorem c2_all_conflicting_keys_leave_file_unchanged (content : Json)
    (pending : List (String × Scalar))
    (h : ∀ kv ∈ pending, pathConflicts content (jsSplitDot kv.1) = true) :
    TranslationMCPServer.syncLanguageToFile content pending = (content, 0) := by
  unfold TranslationMCPServer.syncLanguageToFile
  induction pending with
  | nil => rfl
  | cons kv rest ih =>
    rw [List.foldl_cons]
    rw [modifyValue_none_of_conflicts _ _ _ (h kv (List.mem_cons_self kv rest))]
    exact ih (fun kv2 hkv2 => h kv2 (List.mem_cons_of_mem kv hkv2))

/-- File content of the C2 scenario. -/
def c2File : Json := Json.obj [("a", .str "x")]

/-- C2 counterexample: with file `{"a":"x"}` and pending keys
`"a.b"` (conflicting) and `"c"` (not), the language's write is NOT
skipped: the conflicting key alone is dropped, one edit succeeds,
`changesMade = 1` triggers a write, and the file becomes
`{"a":"x","c":"z"}` — contradicting "if any key conflicts the entire
write for that language is skipped and the file is unchanged". -/
theorem c2_conflict_does_not_skip_whole_language :
    pathConflicts c2File (jsSplitDot "a.b") = true ∧
    (TranslationMCPServer.syncLanguageToFile c2File
        [("a.b", Scalar.str "y"), ("c", Scalar.str "z")]).2 = 1 ∧
    (TranslationMCPServer.syncLanguageToFile c2File
        [("a.b", Scalar.str "y"), ("c", Scalar.str "z")]).1 =
      Json.obj [("a", .str "x"), ("c", .str "z")] :=
  ⟨rfl, rfl, rfl⟩

/-- C2 witness (the spec's own scenario): file `{"a":"x"}` with the
single pending key `"a.b" = "y"` — every pending key conflicts, so no
write happens and the content stays exactly `{"a":"x"}`. -/
theorem c2_all_conflicting_keys_leave_file_unchanged_witness :
    TranslationMCPServer.syncLanguageToFile c2File [("a.b", Scalar.str "y")] =
      (c2File, 0) :=
  c2_all_conflicting_keys_leave_file_unchanged c2File [("a.b", Scalar.str "y")]
    (fun kv hkv => by
      rw [List.mem_singleton.mp hkv]
      rfl)


/-- Specification of getContext's children list: the sorted keys that
are children in the `isChildOf` sense — strict dotted descendants of
any depth — holding non-empty filtered translations, paired with those
translations. -/
def childrenSpec (flat : List (String × LangMap)) (opts : ContextOptions)
    (keyPath : String) (keys : List String) : List KeyedTranslations :=
  keys.filterMap (fun other =>
    if PathParser.isChildOf other keyPath then
      match alookup flat other with
      | some ce =>
        if (TranslationContextEngine.filterLangs opts ce).isEmpty then none
        else some ⟨other, TranslationContextEngine.filterLangs opts ce⟩
      | none => none
    else none)

theorem foldl_contextStep_children (flat : List (String × LangMap))
    (opts : ContextOptions) (keyPath : String) (parentPath : Option String) :
    ∀ (keys : List String) (acc : List KeyedTranslations × List KeyedTranslations),
      (keys.foldl (TranslationContextEngine.contextStep flat opts keyPath parentPath) acc).1 =
        acc.1 ++ childrenSpec flat opts keyPath keys := by
  intro keys
  induction keys with
  | nil => intro acc; simp [childrenSpec]
  | cons other rest ih =>
    intro acc
    rw [List.foldl_cons, ih]
    unfold childrenSpec
    rw [List.filterMap_cons]
    unfold TranslationContextEngine.contextStep
    by_cases hch : PathParser.isChildOf other keyPath = true
    · simp only [hch, if_true]
      cases hl : alookup flat other with
      | none => simp [childrenSpec]
      | some ce =>
        by_cases he : (TranslationContextEngine.filterLangs opts ce).isEmpty = true
        · simp [he, childrenSpec]
        · simp [he, childrenSpec]
    · simp [hch, childrenSpec]

/-- C7 (amended): for a key path present in the index, getContext's
children are exactly the indexed keys that are strict dotted
descendants of the key path — of any depth, since `isChildOf` is a
dotted-prefix test — having non-empty language-filtered translations. -/
theorem c7_children_are_all_strict_descendants (flat : List (String × LangMap))
    (sortedKeys : List String) (keyPath : String) (opts : ContextOptions)
    (entry : LangMap) (hf : alookup flat keyPath = some entry) :
    ∃ res, TranslationContextEngine.getContext flat sortedKeys keyPath opts = some res ∧
      res.children = childrenSpec flat opts keyPath sortedKeys := by
  unfold TranslationContextEngine.getContext
  simp only [hf]
  refine ⟨_, rfl, ?_⟩
  simpa using
    foldl_contextStep_children flat opts keyPath (PathParser.getParent keyPath)
      sortedKeys ([], [])

/-- Entry for "a" in the C7 counterexample index. -/
def c7TE1 : TranslationEntry := ⟨.str "A", "", 0, 0, 0⟩

/-- Entry for "a.b.c" in the C7 counterexample index. -/
def c7TE2 : TranslationEntry := ⟨.str "C", "", 0, 0, 0⟩

/-- C7 counterexample index: "a" and its grandchild-level key "a.b.c". -/
def c7Flat : List (String × LangMap) :=
  [("a", [("en", c7TE1)]), ("a.b.c", [("en", c7TE2)])]

/-- C7 counterexample: getContext("a") reports "a.b.c" — three
segments deep, i.e. two levels below "a" — as a child, contradicting
"children are exactly the keys one segment deeper; no deeper
descendants of k appear". -/
theorem c7_children_include_deeper_descendants :
    (TranslationContextEngine.getContext c7Flat ["a", "a.b.c"] "a" ⟨0, none⟩).map
        (fun r => r.children.map (fun c => c.keyPath)) = some ["a.b.c"] ∧
    PathParser.getDepth "a.b.c" = 3 ∧ PathParser.getDepth "a" = 1 :=
  ⟨by decide, by decide, by decide⟩

/-- C7 witness: the amended characterisation instantiated on the
concrete two-key index. -/
theorem c7_children_are_all_strict_descendants_witness :
    ∃ res,
      TranslationContextEngine.getContext c7Flat ["a", "a.b.c"] "a" ⟨0, none⟩ =
        some res ∧
      res.children = childrenSpec c7Flat ⟨0, none⟩ "a" ["a", "a.b.c"] :=
  c7_children_are_all_strict_descendants c7Flat ["a", "a.b.c"] "a" ⟨0, none⟩
    [("en", c7TE1)] (by decide)

theorem pushResult_length (results : List SearchResult) (keyPath : String)
    (filteredEntry : LangMap) (sm : Nat × Option MatchType) :
    (TranslationSearchEngine.pushResult results keyPath filteredEntry sm).length ≤
      results.length + 1 := by
  unfold TranslationSearchEngine.pushResult
  rcases sm with ⟨sc, mt⟩
  cases mt with
  | none => simp
  | some m =>
    by_cases hc : (decide (sc > 0) && !filteredEntry.isEmpty) = true
    · simp [hc]
    · simp [hc]

theorem processKey_length (flat : List (String × LangMap)) (q : String)
    (opts : SearchOptions) (keyPath : String) (entry : LangMap)
    (results : List SearchResult) :
    (TranslationSearchEngine.processKey flat q opts keyPath entry results).length ≤
      results.length + 1 := by
  unfold TranslationSearchEngine.processKey
  apply pushResult_length

theorem searchLoop_length_le (flat : List (String × LangMap)) (q : String)
    (opts : SearchOptions) (m : Nat) (hm : opts.maxResults = some m) :
    ∀ (keys : List String) (results : List SearchResult),
      results.length < m →
      (TranslationSearchEngine.searchLoop flat q opts keys results).length ≤ m := by
  intro keys
  induction keys with
  | nil =>
    intro res h
    unfold TranslationSearchEngine.searchLoop
    exact Nat.le_of_lt h
  | cons kp rest ih =>
    intro res hlt
    unfold TranslationSearchEngine.searchLoop
    cases hf : alookup flat kp with
    | none => exact ih res hlt
    | some entry =>
      have hpk : (TranslationSearchEngine.processKey flat q opts kp entry res).length ≤ m :=
        le_trans (processKey_length flat q opts kp entry res) hlt
      by_cases hmr : TranslationSearchEngine.maxReached opts
          (TranslationSearchEngine.processKey flat q opts kp entry res) = true
      · simp only [hmr, if_true]
        exact hpk
      · simp only [hmr, Bool.false_eq_true, if_false]
        apply ih
        by_cases hz : m = 0
        · exact absurd hlt (by simp [hz])
        · have hmr2 := hmr
          unfold TranslationSearchEngine.maxReached at hmr2
          rw [hm] at hmr2
          simp only [Bool.and_eq_true, decide_eq_true_eq, not_and] at hmr2
          exact Nat.lt_of_not_le (hmr2 hz)

theorem mem_insertByScore (x y : SearchResult) (l : List SearchResult) :
    y ∈ TranslationSearchEngine.insertByScore x l ↔ y ∈ l ∨ y = x := by
  induction l with
  | nil => simp [TranslationSearchEngine.insertByScore]
  | cons h t ih =>
    by_cases hc : h.score ≤ x.score
    · simp [TranslationSearchEngine.insertByScore, hc]
      tauto
    · simp [TranslationSearchEngine.insertByScore, hc, ih]
      tauto

theorem insertByScore_length (x : SearchResult) (l : List SearchResult) :
    (TranslationSearchEngine.insertByScore x l).length = l.length + 1 := by
  induction l with
  | nil => rfl
  | cons h t ih =>
    by_cases hc : h.score ≤ x.score <;>
      simp [TranslationSearchEngine.insertByScore, hc, ih]

theorem sortByScore_length (l : List SearchResult) :
    (TranslationSearchEngine.sortByScore l).length = l.length := by
  induction l with
  | nil => rfl
  | cons h t ih => simp [TranslationSearchEngine.sortByScore, insertByScore_length, ih]

theorem insertByScore_sorted (x : SearchResult) (l : List SearchResult)
    (hs : List.Pairwise (fun a b => b.score ≤ a.score) l) :
    List.Pairwise (fun a b => b.score ≤ a.score)
      (TranslationSearchEngine.insertByScore x l) := by
  induction l with
  | nil => simp [TranslationSearchEngine.insertByScore]
  | cons h t ih =>
    rcases List.pairwise_cons.mp hs with ⟨hhead, htail⟩
    by_cases hc : h.score ≤ x.score
    · simp only [TranslationSearchEngine.insertByScore, hc, if_true]
      refine List.pairwise_cons.mpr ⟨?_, hs⟩
      intro y hy
      rcases List.mem_cons.mp hy with hy | hy
      · subst hy; exact hc
      · exact le_trans (hhead y hy) hc
    · simp only [TranslationSearchEngine.insertByScore, hc, if_false]
      refine List.pairwise_cons.mpr ⟨?_, ih htail⟩
      intro y hy
      rcases (mem_insertByScore x y t).mp hy with hy | hy
      · exact hhead y hy
      · subst hy; exact Nat.le_of_lt (Nat.lt_of_not_le hc)

theorem sortByScore_sorted (l : List SearchResult) :
    List.Pairwise (fun a b => b.score ≤ a.score)
      (TranslationSearchEngine.sortByScore l) := by
  induction l with
  | nil => simp [TranslationSearchEngine.sortByScore]
  | cons h t ih => exact insertByScore_sorted h _ ih

/-- C8 (amended): with a non-zero `maxResults` set, search returns at
most `maxResults` results, sorted by score descending; the early stop
truncates in scan order, which can drop keys that would have scored
strictly higher than returned results (see the counterexample). -/
theorem c8_search_respects_maxResults (flat : List (String × LangMap))
    (sortedKeys : List String) (q : String) (opts : SearchOptions) (m : Nat)
    (hm : opts.maxResults = some m) (h0 : 0 < m) :
    (TranslationSearchEngine.search flat sortedKeys q opts).length ≤ m ∧
    List.Pairwise (fun a b => b.score ≤ a.score)
      (TranslationSearchEngine.search flat sortedKeys q opts) := by
  constructor
  · unfold TranslationSearchEngine.search
    rw [sortByScore_length]
    exact searchLoop_length_le flat q opts m hm sortedKeys [] (by simpa using h0)
  · exact sortByScore_sorted _

/-- Entry for key "ab" in the C8 counterexample. -/
def c8TE1 : TranslationEntry := ⟨.str "A", "", 0, 0, 0⟩

/-- Entry for key "b" in the C8 counterexample. -/
def c8TE2 : TranslationEntry := ⟨.str "B", "", 0, 0, 0⟩

/-- C8 counterexample index. -/
def c8Flat : List (String × LangMap) :=
  [("ab", [("en", c8TE1)]), ("b", [("en", c8TE2)])]

/-- C8 counterexample: query "b" with maxResults 1 over keys
["ab", "b"] returns only "ab" with substring score 0.7, stopping before
the exact match "b" whose key score would have been 1.0 — the early
stop drops a strictly higher-scoring key, not merely a tied one. -/
theorem c8_early_stop_drops_strictly_higher_scores :
    TranslationSearchEngine.search c8Flat ["ab", "b"] "b"
        ⟨.keys, none, some 1, false⟩ =
      [⟨"ab", [("en", c8TE1)], 7, .key⟩] ∧
    TranslationSearchEngine.calculateKeyScore "b" "b" = 10 ∧
    (7 : Nat) < 10 :=
  ⟨by decide, by decide, by decide⟩

/-- C8 witness: the amended bound instantiated at the concrete search
call with maxResults 1. -/
theorem c8_search_respects_maxResults_witness :
    (TranslationSearchEngine.search c8Flat ["ab", "b"] "b"
        ⟨.keys, none, some 1, false⟩).length ≤ 1 ∧
    List.Pairwise (fun a b => b.score ≤ a.score)
      (TranslationSearchEngine.search c8Flat ["ab", "b"] "b"
        ⟨.keys, none, some 1, false⟩) :=
  c8_search_respects_maxResults c8Flat ["ab", "b"] "b"
    ⟨.keys, none, some 1, false⟩ 1 rfl (by decide)

theorem charsLt_trans : ∀ (a b c : List Char), charsLt a b = true →
    charsLt b c = true → charsLt a c = true := by
  intro a
  induction a with
  | nil =>
    intro b c h1 h2
    cases b with
    | nil => exact h2
    | cons y ys =>
      cases c with
      | nil => simp [charsLt] at h2
      | cons z zs => rfl
  | cons x xs ih =>
    intro b c h1 h2
    cases b with
    | nil => simp [charsLt] at h1
    | cons y ys =>
      cases c with
      | nil => simp [charsLt] at h2
      | cons z zs =>
        unfold charsLt at h1 h2 ⊢
        by_cases hxy : x < y
        · by_cases hyz : y < z
          · simp [lt_trans hxy hyz]
          · by_cases hzy : z < y
            · simp [hyz, hzy] at h2
            · have hyzeq : y = z := le_antisymm (le_of_not_lt hzy) (le_of_not_lt hyz)
              subst hyzeq
              simp [hxy]
        · by_cases hyx : y < x
          · simp [hxy, hyx] at h1
          · have hxyeq : x = y := le_antisymm (le_of_not_lt hyx) (le_of_not_lt hxy)
            subst hxyeq
            simp only [lt_irrefl, if_false] at h1 ⊢
            by_cases hyz : x < z
            · simp [hyz]
            · by_cases hzy : z < x
              · simp [hyz, hzy] at h2
              · have hyzeq : x = z := le_antisymm (le_of_not_lt hzy) (le_of_not_lt hyz)
                subst hyzeq
                simp only [lt_irrefl, if_false] at h1 h2 ⊢
                exact ih ys zs h1 h2

theorem charsLt_append_right : ∀ (p x q : List Char), charsLt x p = true →
    charsLt x (p ++ q) = true := by
  intro p
  induction p with
  | nil =>
    intro x q h
    cases x <;> simp [charsLt] at h
  | cons c cs ih =>
    intro x q h
    cases x with
    | nil => rfl
    | cons d ds =>
      rw [List.cons_append]
      show (if d < c then true else if c < d then false else charsLt ds (cs ++ q)) = true
      have h2 : (if d < c then true else if c < d then false else charsLt ds cs) = true := h
      by_cases hdc : d < c
      · simp [hdc]
      · by_cases hcd : c < d
        · simp [hdc, hcd] at h2
        · simp only [hdc, hcd, if_false] at h2 ⊢
          exact ih ds q h2

theorem charsStarts_iff_bounds (p : List Char) :
    ∀ (k : List Char), (∀ c ∈ k, c < TranslationSearchEngine.sentChar) →
      charsStarts k p =
        (!charsLt k p && charsLt k (p ++ [TranslationSearchEngine.sentChar])) := by
  induction p with
  | nil =>
    intro k hk
    cases k with
    | nil => rfl
    | cons c cs =>
      have hc : c < TranslationSearchEngine.sentChar := hk c (List.mem_cons_self c cs)
      simp [charsStarts, charsLt, hc]
  | cons q qs ih =>
    intro k hk
    cases k with
    | nil => rfl
    | cons c cs =>
      by_cases h1 : c = q
      · subst h1
        simp only [charsStarts, if_pos rfl, List.cons_append, charsLt, lt_irrefl, if_false]
        exact ih cs (fun c2 hc2 => hk c2 (List.mem_cons_of_mem c hc2))
      · rcases lt_or_gt_of_ne h1 with hlt | hgt
        · simp [charsStarts, h1, List.cons_append, charsLt, hlt]
        · simp [charsStarts, h1, List.cons_append, charsLt, hgt,
            not_lt_of_gt hgt]

/-- String of the sentinel character. -/
def sentStr : String := String.mk [TranslationSearchEngine.sentChar]

theorem strLt_trans (a b c : String) (h1 : strLt a b = true)
    (h2 : strLt b c = true) : strLt a c = true :=
  charsLt_trans a.data b.data c.data h1 h2

theorem strLt_append_sent (p x : String) (h : strLt x p = true) :
    strLt x (p ++ sentStr) = true := by
  unfold strLt at h ⊢
  rw [String.data_append]
  exact charsLt_append_right p.data x.data sentStr.data h

theorem strStarts_iff_bounds (k p : String)
    (hk : ∀ c ∈ k.data, c < TranslationSearchEngine.sentChar) :
    strStarts k p = (!strLt k p && strLt k (p ++ sentStr)) := by
  unfold strStarts strLt
  rw [String.data_append]
  exact charsStarts_iff_bounds p.data k.data hk

theorem validChar_lt_sent (c : Char) (h : PathParser.isValidChar c = true) :
    c < TranslationSearchEngine.sentChar := by
  unfold PathParser.isValidChar at h
  simp only [Bool.or_eq_true, Bool.and_eq_true, decide_eq_true_eq] at h
  rcases h with ((((⟨_, h2⟩ | ⟨_, h2⟩) | ⟨_, h2⟩) | h1) | h1) | h1
  · exact lt_of_le_of_lt h2 (by decide)
  · exact lt_of_le_of_lt h2 (by decide)
  · exact lt_of_le_of_lt h2 (by decide)
  · subst h1; decide
  · subst h1; decide
  · subst h1; decide

theorem isValid_parts (k : String) (h : PathParser.isValid k = true) :
    k ≠ "" ∧ k.data.all PathParser.isValidChar = true := by
  unfold PathParser.isValid at h
  split at h
  · exact absurd h (by simp)
  · split at h
    · exact absurd h (by simp)
    · split at h
      · exact absurd h (by simp)
      · split at h
        · exact absurd h (by simp)
        · rename_i h1 h2 h3 h4
          exact ⟨h1, by simpa using h2⟩

theorem isValid_nonempty (k : String) (h : PathParser.isValid k = true) :
    k ≠ "" := (isValid_parts k h).1

theorem isValid_chars_lt_sent (k : String) (h : PathParser.isValid k = true) :
    ∀ c ∈ k.data, c < TranslationSearchEngine.sentChar := by
  intro c hc
  have h2 := (isValid_parts k h).2
  rw [List.all_eq_true] at h2
  exact validChar_lt_sent c (h2 c hc)

theorem sorted_strLt_lt_mono (keys : List String) (tgt : String)
    (hs : List.Pairwise (fun a b => strLt a b = true) keys)
    (i j : Nat) (hij : i ≤ j) (hj : j < keys.length)
    (h : strLt keys[j] tgt = true) :
    ∀ hi : i < keys.length, strLt keys[i] tgt = true := by
  intro hi
  rcases Nat.eq_or_lt_of_le hij with he | hlt
  · subst he; exact h
  · have hp := (List.pairwise_iff_getElem.mp hs) i j hi hj hlt
    exact strLt_trans keys[i] keys[j] tgt hp h

theorem sorted_strLt_ge_mono (keys : List String) (tgt : String)
    (hs : List.Pairwise (fun a b => strLt a b = true) keys)
    (i j : Nat) (hij : i ≤ j) (hj : j < keys.length)
    (hi : i < keys.length) (h : strLt keys[i] tgt = false) :
    strLt keys[j] tgt = false := by
  rcases Nat.eq_or_lt_of_le hij with he | hlt
  · subst he; exact h
  · by_cases h2 : strLt keys[j] tgt = true
    · have hp := (List.pairwise_iff_getElem.mp hs) i j hi hj hlt
      exact absurd (strLt_trans keys[i] keys[j] tgt hp h2) (by simp [h])
    · exact Bool.eq_false_iff.mpr h2

theorem bsLowerGo_spec (keys : List String) (tgt : String)
    (hs : List.Pairwise (fun a b => strLt a b = true) keys)
    (hv : ∀ k ∈ keys, k ≠ "") :
    ∀ (fuel left right : Nat), right - left ≤ fuel → left ≤ right →
      right ≤ keys.length →
      (∀ i, i < left → ∀ hi : i < keys.length, strLt keys[i] tgt = true) →
      (∀ i, right ≤ i → ∀ hi : i < keys.length, strLt keys[i] tgt = false) →
      left ≤ TranslationSearchEngine.bsLowerGo keys tgt fuel left right ∧
      TranslationSearchEngine.bsLowerGo keys tgt fuel left right ≤ right ∧
      (∀ i, i < TranslationSearchEngine.bsLowerGo keys tgt fuel left right →
        ∀ hi : i < keys.length, strLt keys[i] tgt = true) ∧
      (∀ i, TranslationSearchEngine.bsLowerGo keys tgt fuel left right ≤ i →
        ∀ hi : i < keys.length, strLt keys[i] tgt = false) := by
  intro fuel
  induction fuel with
  | zero =>
    intro left right hfl hlr hr hL hR
    have heq : left = right := Nat.le_antisymm hlr (Nat.le_of_sub_eq_zero
      (Nat.le_zero.mp hfl))
    refine ⟨Nat.le_refl _, ?_, ?_, ?_⟩
    · unfold TranslationSearchEngine.bsLowerGo
      exact Nat.le_of_eq heq
    · intro i hi hilen
      exact hL i hi hilen
    · intro i hi hilen
      apply hR i _ hilen
      rw [← heq]
      exact hi
  | succ fuel ih =>
    intro left right hfl hlr hr hL hR
    have hstep : TranslationSearchEngine.bsLowerGo keys tgt (fuel + 1) left right =
        (if left < right then
          (if (keys.getD ((left + right) / 2) "" ≠ "" &&
                strLt (keys.getD ((left + right) / 2) "") tgt) = true then
            TranslationSearchEngine.bsLowerGo keys tgt fuel ((left + right) / 2 + 1) right
          else TranslationSearchEngine.bsLowerGo keys tgt fuel left ((left + right) / 2))
        else left) := rfl
    by_cases hc : left < right
    · have hmid_lt : (left + right) / 2 < right := by omega
      have hmidlen : (left + right) / 2 < keys.length := lt_of_lt_of_le hmid_lt hr
      have hkey : keys.getD ((left + right) / 2) "" = keys[(left + right) / 2] :=
        List.getD_eq_getElem keys "" hmidlen
      have hne : keys[(left + right) / 2] ≠ "" := hv _ (List.getElem_mem hmidlen)
      by_cases hlt2 : strLt keys[(left + right) / 2] tgt = true
      · have hred : TranslationSearchEngine.bsLowerGo keys tgt (fuel + 1) left right =
            TranslationSearchEngine.bsLowerGo keys tgt fuel ((left + right) / 2 + 1) right := by
          rw [hstep, if_pos hc, hkey, if_pos (by simp [hne, hlt2])]
        rw [hred]
        have hL2 : ∀ i, i < (left + right) / 2 + 1 →
            ∀ hi : i < keys.length, strLt keys[i] tgt = true := by
          intro i hi hilen
          by_cases hiL : i < left
          · exact hL i hiL hilen
          · exact sorted_strLt_lt_mono keys tgt hs i ((left + right) / 2)
              (by omega) hmidlen hlt2 hilen
        obtain ⟨ha, hb, hc2, hd⟩ :=
          ih ((left + right) / 2 + 1) right (by omega) (by omega) hr hL2 hR
        exact ⟨le_trans (by omega) ha, hb, hc2, hd⟩
      · have hlt3 : strLt keys[(left + right) / 2] tgt = false :=
          Bool.eq_false_iff.mpr hlt2
        have hred : TranslationSearchEngine.bsLowerGo keys tgt (fuel + 1) left right =
            TranslationSearchEngine.bsLowerGo keys tgt fuel left ((left + right) / 2) := by
          rw [hstep, if_pos hc, hkey, if_neg (by simp [hlt3])]
        rw [hred]
        have hR2 : ∀ i, (left + right) / 2 ≤ i →
            ∀ hi : i < keys.length, strLt keys[i] tgt = false := by
          intro i hi hilen
          exact sorted_strLt_ge_mono keys tgt hs ((left + right) / 2) i hi hilen
            hmidlen hlt3
        obtain ⟨ha, hb, hc2, hd⟩ :=
          ih left ((left + right) / 2) (by omega) (by omega) (by omega) hL hR2
        exact ⟨ha, le_trans hb (by omega), hc2, hd⟩
    · rw [hstep, if_neg hc]
      have hle : right ≤ left := Nat.le_of_not_lt hc
      refine ⟨Nat.le_refl _, hlr, ?_, ?_⟩
      · intro i hi hilen
        exact hL i hi hilen
      · intro i hi hilen
        exact hR i (le_trans hle hi) hilen

theorem sortStrings_of_sorted : ∀ (l : List String),
    List.Pairwise (fun a b => strLt a b = true) l →
    TranslationIndex.sortStrings l = l := by
  intro l hl
  induction l with
  | nil => rfl
  | cons h t ih =>
    rcases List.pairwise_cons.mp hl with ⟨hh, ht⟩
    unfold TranslationIndex.sortStrings
    rw [ih ht]
    cases t with
    | nil => rfl
    | cons h2 t2 =>
      unfold TranslationIndex.insertSorted
      rw [if_pos (hh h2 (List.mem_cons_self h2 t2))]

/-- C5: searchByPrefix — the binary-searched contiguous slice between
the first index ≥ p and the last index < p + sentinel — returns exactly
the naive reference `keys.filter(k => k.startsWith(p))` (and hence its
sorted form, the filter of a sorted list being sorted). -/
theorem c5_searchByPrefix_eq_filter (sortedKeys : List String) (p : String)
    (hs : List.Pairwise (fun a b => strLt a b = true) sortedKeys)
    (hv : ∀ k ∈ sortedKeys, PathParser.isValid k = true) :
    TranslationSearchEngine.searchByPrefix sortedKeys p =
      sortedKeys.filter (fun k => strStarts k p) ∧
    TranslationSearchEngine.searchByPrefix sortedKeys p =
      TranslationIndex.sortStrings (sortedKeys.filter (fun k => strStarts k p)) := by
  have hvne : ∀ k ∈ sortedKeys, k ≠ "" := fun k hk => isValid_nonempty k (hv k hk)
  set n := sortedKeys.length with hn
  set sIdx := TranslationSearchEngine.bsLowerGo sortedKeys p (n + 1) 0 n with hsIdx
  set eIdx := TranslationSearchEngine.bsLowerGo sortedKeys (p ++ sentStr) (n + 1) 0 n
    with heIdx
  obtain ⟨hs0, hs1, hsT, hsF⟩ :=
    bsLowerGo_spec sortedKeys p hs hvne (n + 1) 0 n (by omega) (by omega)
      (by omega) (by intro i hi hilen; exact absurd hi (by omega))
      (by intro i h1 h2; exact absurd h2 (by omega))
  obtain ⟨he0, he1, heT, heF⟩ :=
    bsLowerGo_spec sortedKeys (p ++ sentStr) hs hvne (n + 1) 0 n (by omega)
      (by omega) (by omega) (by intro i hi hilen; exact absurd hi (by omega))
      (by intro i h1 h2; exact absurd h2 (by omega))
  have hse : sIdx ≤ eIdx := by
    by_contra hcon
    push_neg at hcon
    have hlen : eIdx < sortedKeys.length := by omega
    have h1 : strLt sortedKeys[eIdx] p = true := hsT eIdx hcon hlen
    have h2 : strLt sortedKeys[eIdx] (p ++ sentStr) = false := heF eIdx (le_refl _) hlen
    rw [strLt_append_sent p sortedKeys[eIdx] h1] at h2
    simp at h2
  have hds : ∀ i, i < sIdx → ∀ hi : i < sortedKeys.length,
      strStarts sortedKeys[i] p = false := by
    intro i hi hilen
    rw [strStarts_iff_bounds _ _
      (isValid_chars_lt_sent _ (hv _ (List.getElem_mem hilen)))]
    simp [hsT i hi hilen]
  have hmid : ∀ i, sIdx ≤ i → i < eIdx → ∀ hi : i < sortedKeys.length,
      strStarts sortedKeys[i] p = true := by
    intro i h1 h2 hilen
    rw [strStarts_iff_bounds _ _
      (isValid_chars_lt_sent _ (hv _ (List.getElem_mem hilen)))]
    simp [hsF i h1 hilen, heT i h2 hilen]
  have hdrop : ∀ i, eIdx ≤ i → ∀ hi : i < sortedKeys.length,
      strStarts sortedKeys[i] p = false := by
    intro i h1 hilen
    rw [strStarts_iff_bounds _ _
      (isValid_chars_lt_sent _ (hv _ (List.getElem_mem hilen)))]
    simp [heF i h1 hilen]
  have hfilter : sortedKeys.filter (fun k => strStarts k p) =
      (sortedKeys.drop sIdx).take (eIdx - sIdx) := by
    have hdecomp : sortedKeys =
        sortedKeys.take sIdx ++
          ((sortedKeys.drop sIdx).take (eIdx - sIdx) ++ sortedKeys.drop eIdx) := by
      have h1 : (sortedKeys.drop sIdx).drop (eIdx - sIdx) = sortedKeys.drop eIdx := by
        rw [List.drop_drop]
        congr 1
        omega
      rw [← h1, List.take_append_drop, List.take_append_drop]
    conv_lhs => rw [hdecomp]
    rw [List.filter_append, List.filter_append]
    rw [List.filter_eq_nil_iff.mpr ?hpre, List.filter_eq_self.mpr ?hmid2,
      List.filter_eq_nil_iff.mpr ?hpost]
    case hpre =>
      intro a ha
      obtain ⟨i, hleni, hgeti⟩ := List.mem_iff_getElem.mp ha
      have hlt : i < sIdx := by
        have h2 := hleni
        simp [List.length_take] at h2
        omega
      have hilen : i < sortedKeys.length := by
        have h2 := hleni
        simp [List.length_take] at h2
        omega
      rw [← hgeti, List.getElem_take]
      simp [hds i hlt hilen]
    case hmid2 =>
      intro a ha
      obtain ⟨j, hlenj, hgetj⟩ := List.mem_iff_getElem.mp ha
      have hj1 : j < eIdx - sIdx := by
        have h2 := hlenj
        simp [List.length_take, List.length_drop] at h2
        omega
      have hj2 : sIdx + j < sortedKeys.length := by
        have h2 := hlenj
        simp [List.length_take, List.length_drop] at h2
        omega
      rw [← hgetj, List.getElem_take, List.getElem_drop]
      exact hmid (sIdx + j) (by omega) (by omega) hj2
    case hpost =>
      intro a ha
      obtain ⟨j, hlenj, hgetj⟩ := List.mem_iff_getElem.mp ha
      have hj2 : eIdx + j < sortedKeys.length := by
        have h2 := hlenj
        simp [List.length_drop] at h2
        omega
      rw [← hgetj, List.getElem_drop]
      simp [hdrop (eIdx + j) (by omega) hj2]
    simp
  have hred : TranslationSearchEngine.searchByPrefix sortedKeys p =
      (sortedKeys.drop sIdx).take (eIdx - sIdx) := by
    unfold TranslationSearchEngine.searchByPrefix
      TranslationSearchEngine.binarySearchStart TranslationSearchEngine.binarySearchEnd
    rw [show String.mk [TranslationSearchEngine.sentChar] = sentStr from rfl]
    rw [← hn, ← hsIdx, ← heIdx]
    have h1 : (((eIdx : Int)) - 1 + 1).toNat = eIdx := by omega
    simp only [h1]
  refine ⟨hred.trans hfilter.symm, ?_⟩
  rw [hred.trans hfilter.symm]
  rw [sortStrings_of_sorted _ (List.Pairwise.sublist (List.filter_sublist _) hs)]

/-- C5 witness: the spec's scenario — keys
["auth.login","auth.logout","common.ok"], prefix "auth." — instantiating
the general equivalence. -/
theorem c5_searchByPrefix_eq_filter_witness :
    TranslationSearchEngine.searchByPrefix
        ["auth.login", "auth.logout", "common.ok"] "auth." =
      ["auth.login", "auth.logout", "common.ok"].filter
        (fun k => strStarts k "auth.") ∧
    TranslationSearchEngine.searchByPrefix
        ["auth.login", "auth.logout", "common.ok"] "auth." =
      TranslationIndex.sortStrings
        (["auth.login", "auth.logout", "common.ok"].filter
          (fun k => strStarts k "auth.")) :=
  c5_searchByPrefix_eq_filter ["auth.login", "auth.logout", "common.ok"] "auth."
    (by decide) (by decide)
